import Mathlib

/-! # PropertyFlags (libraries/shared/src/PropertyFlags.h)

A shallow embedding of `PropertyFlags<Enum>`: a growable set of enumerated
flags with a self-describing variable-length byte encoding.

Modelling conventions.

* `Enum` values are used by the code only through their `int` value, so a flag
  is an `Int`.  `int` is modelled by unbounded `Int`; `INT_MIN`/`INT_MAX` keep
  their 32-bit values because the empty field stores them as sentinels.  The
  results therefore speak about flag values for which the code's own `int`
  arithmetic (`_maxFlag + 1`, `lengthInBytes + _maxFlag + 1`) does not overflow.
* `QBitArray` (Qt) is a `List Bool`; `QByteArray` is a `List Nat`, each `char`
  being represented by its unsigned 8-bit pattern.
* Qt leaves out-of-range `setBit`/`testBit` to assertions.  The model makes them
  total: an out-of-range `setBit` changes nothing, an out-of-range `testBit` reads
  `false`.  Reads of `decode` past its input are reported explicitly (`none`).
* Qt's `resize` is defined for a size `≥ 0` only, and the model's `resize` takes a
  `Nat`.  `setHasProperty` with a flag `≥ 0` passes `_maxFlag + 1 ≥ 0` in both of its
  resizing paths.  `operator&=` and `operator^=` can pass a negative size (they call
  `shinkIfNeeded` on a field whose `_maxFlag` is still `INT_MIN`); they are partial
  in the model and give `none` there.
-/

namespace PropertyFlags

/-! ## Qt containers -/

/-- Bit array of Qt: a finite sequence of bits. -/
abbrev QBitArray := List Bool

/-- Byte array of Qt: a finite sequence of `char`s, each given by its unsigned bit pattern. -/
abbrev QByteArray := List Nat

namespace QBitArray

/-- Qt `QBitArray::resize(size)` for a size `≥ 0`: keep the first `size` bits, new bits
are `false`.  Qt does not define the call for a negative size. -/
def resize (a : QBitArray) (size : Nat) : QBitArray :=
  (List.range size).map fun i => a.getD i false

/-- Qt `QBitArray::testBit(i)` (also `at(i)` and `operator[]`). -/
def testBit (a : QBitArray) (i : Int) : Bool :=
  if 0 ≤ i then a.getD i.toNat false else false

/-- Qt `QBitArray::setBit(i, value)`. -/
def setBit (a : QBitArray) (i : Int) (value : Bool) : QBitArray :=
  if 0 ≤ i then a.set i.toNat value else a

/-- Qt `QBitArray::operator|=`: the result has the size of the longer operand. -/
def or (a b : QBitArray) : QBitArray :=
  (List.range (max a.length b.length)).map fun i => a.getD i false || b.getD i false

/-- Qt `QBitArray::operator&=`: the result has the size of the longer operand. -/
def and (a b : QBitArray) : QBitArray :=
  (List.range (max a.length b.length)).map fun i => a.getD i false && b.getD i false

/-- Qt `QBitArray::operator^=`: the result has the size of the longer operand. -/
def xor (a b : QBitArray) : QBitArray :=
  (List.range (max a.length b.length)).map fun i => Bool.xor (a.getD i false) (b.getD i false)

/-- Qt `QBitArray::operator~`: every bit inverted, same size. -/
def not (a : QBitArray) : QBitArray :=
  a.map fun b => !b

end QBitArray

/-! ## The class -/

/-- Constant `INT_MIN` of `<climits>` for a 32-bit `int`. -/
def INT_MIN : Int := -2147483648

/-- Constant `INT_MAX` of `<climits>` for a 32-bit `int`. -/
def INT_MAX : Int := 2147483647

/-- Constant `const int BITS_PER_BYTE = 8;`. -/
def BITS_PER_BYTE : Nat := 8

end PropertyFlags

/-- The private members of `PropertyFlags<Enum>`. -/
structure PropertyFlags where
  _flags : PropertyFlags.QBitArray
  _maxFlag : Int
  _minFlag : Int
  _trailingFlipped : Bool
  deriving DecidableEq

namespace PropertyFlags

/-- Default constructor `PropertyFlags()`. -/
def empty : PropertyFlags :=
  { _flags := [], _maxFlag := INT_MIN, _minFlag := INT_MAX, _trailingFlipped := false }

/-- Method `clear()`. -/
def clear (_s : PropertyFlags) : PropertyFlags :=
  { _flags := [], _maxFlag := INT_MIN, _minFlag := INT_MAX, _trailingFlipped := false }

/-- Method `firstFlag()`. -/
def firstFlag (s : PropertyFlags) : Int := s._minFlag

/-- Method `lastFlag()`. -/
def lastFlag (s : PropertyFlags) : Int := s._maxFlag

/-- The `while` loop of `shinkIfNeeded`, entered with `_maxFlag = n - 1 ≥ -1`:
walk down from `_maxFlag` until a set bit is found or `_maxFlag` is `-1`. -/
def shinkLoop (flags : QBitArray) : Nat → Int
  | 0 => -1
  | n + 1 => if QBitArray.testBit flags (n : Int) then (n : Int) else shinkLoop flags n

/-- Method `shinkIfNeeded()`, as entered with `_maxFlag ≥ -1` (from `setHasProperty`
with a flag `≥ 0` it is entered with `_maxFlag = flag`), so that the size `_maxFlag + 1`
passed to `resize` is `≥ 0`.  `maxFlagWas` is declared `bool` in the source, so it holds
`_maxFlag != 0`, and the comparison `maxFlagWas != _maxFlag` promotes it to `0` or `1`. -/
def shinkIfNeeded (s : PropertyFlags) : PropertyFlags :=
  let maxFlagWas : Int := if s._maxFlag ≠ 0 then 1 else 0
  let maxFlag : Int :=
    if 0 ≤ s._maxFlag then shinkLoop s._flags (s._maxFlag.toNat + 1) else s._maxFlag
  if maxFlagWas ≠ maxFlag then
    { s with _maxFlag := maxFlag, _flags := QBitArray.resize s._flags (maxFlag + 1).toNat }
  else
    { s with _maxFlag := maxFlag }

/-- Method `shinkIfNeeded()` for any state on entry: `none` when `_flags.resize` is
called with a negative size `_maxFlag + 1`, which Qt does not define.  That happens when
the method is entered with `_maxFlag = INT_MIN`: the loop is skipped, `maxFlagWas` is
`true` and differs from `_maxFlag`. -/
def shinkIfNeededChecked (s : PropertyFlags) : Option PropertyFlags :=
  let maxFlagWas : Int := if s._maxFlag ≠ 0 then 1 else 0
  let maxFlag : Int :=
    if 0 ≤ s._maxFlag then shinkLoop s._flags (s._maxFlag.toNat + 1) else s._maxFlag
  if maxFlagWas ≠ maxFlag then
    if 0 ≤ maxFlag + 1 then
      some { s with _maxFlag := maxFlag, _flags := QBitArray.resize s._flags (maxFlag + 1).toNat }
    else
      none
  else
    some { s with _maxFlag := maxFlag }

/-- Method `setHasProperty(flag, value)`. -/
def setHasProperty (s : PropertyFlags) (flag : Int) (value : Bool) : PropertyFlags :=
  let minFlag := if flag < s._minFlag ∧ value = true then flag else s._minFlag
  if s._maxFlag < flag then
    if value then
      { s with
        _minFlag := minFlag
        _maxFlag := flag
        _flags := QBitArray.setBit (QBitArray.resize s._flags (flag + 1).toNat) flag value }
    else
      s
  else
    let t : PropertyFlags :=
      { s with _minFlag := minFlag, _flags := QBitArray.setBit s._flags flag value }
    if flag = t._maxFlag ∧ value = false then shinkIfNeeded t else t

/-- Method `getHasProperty(flag)`. -/
def getHasProperty (s : PropertyFlags) (flag : Int) : Bool :=
  if s._maxFlag < flag then s._trailingFlipped else QBitArray.testBit s._flags flag

/-- Single-flag constructor `PropertyFlags(Enum flag)`. -/
def ofFlag (flag : Int) : PropertyFlags :=
  setHasProperty empty flag true

/-- One pass of the body shared by the two packing loops of `encode`:
`output[i / 8] = output.at(i / 8) | (bitValue << shiftBy)`. -/
def packBit (output : QByteArray) (outputIndex : Nat) (bitValue : Nat) : QByteArray :=
  let original := output.getD (outputIndex / BITS_PER_BYTE) 0
  let shiftBy := BITS_PER_BYTE - (outputIndex % BITS_PER_BYTE + 1)
  let thisBit := bitValue <<< shiftBy
  output.set (outputIndex / BITS_PER_BYTE) (original ||| thisBit)

/-- Method `encode()`.  The loop counters are non-negative in every state that passes the
first test with `_maxFlag ≥ 0`; they are carried as `Nat`. -/
def encode (s : PropertyFlags) : QByteArray :=
  if s._maxFlag < s._minFlag then
    List.replicate 1 0
  else
    let lengthInBytes : Int := Int.tdiv s._maxFlag ((BITS_PER_BYTE : Int) - 1) + 1
    let output : QByteArray := List.replicate lengthInBytes.toNat 0
    let output := (List.range lengthInBytes.toNat).foldl
      (fun out i => packBit out i (if (i : Int) < lengthInBytes - 1 then 1 else 0)) output
    let output := (List.range (s._maxFlag + 1).toNat).foldl
      (fun out flagIndex =>
        packBit out (lengthInBytes.toNat + flagIndex)
          (if QBitArray.testBit s._flags (flagIndex : Int) then 1 else 0)) output
    output

/-- The inner loop of the first part of `decode`: the eight bits of one byte,
most significant first (`originalByte & (1 << shiftBy)`). -/
def byteBits (originalByte : Nat) : List Bool :=
  (List.range BITS_PER_BYTE).map fun bit =>
    (originalByte &&& (1 <<< (BITS_PER_BYTE - (bit + 1)))) != 0

/-- The first part of `decode`: the byte array converted into `encodedBits`. -/
def encodedBits : QByteArray → QBitArray
  | [] => []
  | originalByte :: rest => byteBits originalByte ++ encodedBits rest

/-- The second loop of `decode`: the number of leading set bits, which is both the
final `bitAt` and `encodedByteCount` before its increment. -/
def leadingOnes : QBitArray → Nat
  | true :: rest => leadingOnes rest + 1
  | _ => 0

/-- The last loop of `decode`, over `bitAt = flagsStartAt + k` for the `k` in `ks`;
`none` when `encodedBits.at(bitAt)` is outside the bit array. -/
def readFlags (bits : QBitArray) (flagsStartAt : Nat) :
    List Nat → PropertyFlags → Option PropertyFlags
  | [], s => some s
  | k :: ks, s =>
    match bits[flagsStartAt + k]? with
    | none => none
    | some true => readFlags bits flagsStartAt ks (setHasProperty s (k : Int) true)
    | some false => readFlags bits flagsStartAt ks s

/-- Method `decode(fromEncodedBytes)`; `none` when a bit beyond the input is read. -/
def decode (s : PropertyFlags) (fromEncodedBytes : QByteArray) : Option PropertyFlags :=
  let bits := encodedBits fromEncodedBytes
  let bitAt := leadingOnes bits
  let encodedByteCount := bitAt + 1
  let expectedBitCount := encodedByteCount * BITS_PER_BYTE
  let flagsStartAt := bitAt + 1
  readFlags bits flagsStartAt (List.range (expectedBitCount - flagsStartAt)) (clear s)

/-- Assignment `operator=`: copies three of the four members. -/
def assign (s other : PropertyFlags) : PropertyFlags :=
  { s with _flags := other._flags, _maxFlag := other._maxFlag, _minFlag := other._minFlag }

/-- Comparison `operator==`. -/
def eq (s other : PropertyFlags) : Bool := s._flags == other._flags

/-- Operator `|=(PropertyFlags)`. -/
def orAssign (s other : PropertyFlags) : PropertyFlags :=
  { s with
    _flags := QBitArray.or s._flags other._flags
    _maxFlag := max s._maxFlag other._maxFlag
    _minFlag := min s._minFlag other._minFlag }

/-- Operator `&=(PropertyFlags)`; `none` when its `shinkIfNeeded()` calls `resize` with a
negative size. -/
def andAssign (s other : PropertyFlags) : Option PropertyFlags :=
  shinkIfNeededChecked { s with _flags := QBitArray.and s._flags other._flags }

/-- Operator `^=(PropertyFlags)`; `none` when its `shinkIfNeeded()` calls `resize` with a
negative size. -/
def xorAssign (s other : PropertyFlags) : Option PropertyFlags :=
  shinkIfNeededChecked { s with _flags := QBitArray.xor s._flags other._flags }

/-- The flags visited by the loops of `+=`, `-=` and `<<=`:
`other.firstFlag() .. other.lastFlag()`. -/
def flagRange (other : PropertyFlags) : List Int :=
  (List.range (other.lastFlag - other.firstFlag + 1).toNat).map
    fun (k : Nat) => other.firstFlag + (k : Int)

/-- Operator `+=(PropertyFlags)`. -/
def addAssign (s other : PropertyFlags) : PropertyFlags :=
  (flagRange other).foldl
    (fun r flag => if getHasProperty other flag then setHasProperty r flag true else r) s

/-- Operator `-=(PropertyFlags)`. -/
def subAssign (s other : PropertyFlags) : PropertyFlags :=
  (flagRange other).foldl
    (fun r flag => if getHasProperty other flag then setHasProperty r flag false else r) s

/-- Operator `<<=(PropertyFlags)`. -/
def shlAssign (s other : PropertyFlags) : PropertyFlags :=
  (flagRange other).foldl
    (fun r flag => if getHasProperty other flag then setHasProperty r flag true else r) s

/-- Operator `|(PropertyFlags)`: a copy of the left operand, then `|=`. -/
def or (s other : PropertyFlags) : PropertyFlags := orAssign s other

/-- Operator `&(PropertyFlags)`: a copy of the left operand, then `&=`. -/
def and (s other : PropertyFlags) : Option PropertyFlags := andAssign s other

/-- Operator `^(PropertyFlags)`: a copy of the left operand, then `^=`. -/
def xor (s other : PropertyFlags) : Option PropertyFlags := xorAssign s other

/-- Operator `+(PropertyFlags)`: a copy of the left operand, then `+=`. -/
def add (s other : PropertyFlags) : PropertyFlags := addAssign s other

/-- Operator `-(PropertyFlags)`: a copy of the left operand, then `-=`. -/
def sub (s other : PropertyFlags) : PropertyFlags := subAssign s other

/-- Operator `<<(PropertyFlags)`: a copy of the left operand, then `<<=`. -/
def shl (s other : PropertyFlags) : PropertyFlags := shlAssign s other

/-- Operator `~`: a copy with `_flags` inverted and `_trailingFlipped` toggled. -/
def not (s : PropertyFlags) : PropertyFlags :=
  { s with _flags := QBitArray.not s._flags, _trailingFlipped := !s._trailingFlipped }

/-- A field built from the empty field by a sequence of `setHasProperty` calls. -/
def build (calls : List (Int × Bool)) : PropertyFlags :=
  calls.foldl (fun s c => setHasProperty s c.1 c.2) empty

/-- Bit `p` of a byte array read as a bit stream, most significant bit first. -/
def streamBit (bytes : QByteArray) (p : Nat) : Bool :=
  (bytes.getD (p / 8) 0).testBit (7 - p % 8)

end PropertyFlags

namespace PropertyFlags

/-- The set-of-indices reading of a call sequence, in the words of the specification:
flag `j` is in the set exactly when some call targeted `j` and the last call that
targeted `j` had value `true`. -/
def specHasProperty (calls : List (Int × Bool)) (j : Int) : Bool :=
  match (calls.filter fun c => decide (c.1 = j)).getLast? with
  | some c => c.2
  | none => false

/-- Fields reachable from the empty field by `setHasProperty` calls with non-negative
indices and by `operator~`. -/
inductive ReachableWithNot : PropertyFlags → Prop
  | empty : ReachableWithNot empty
  | set (s : PropertyFlags) (i : Int) (v : Bool) :
      ReachableWithNot s → 0 ≤ i → ReachableWithNot (setHasProperty s i v)
  | not (s : PropertyFlags) : ReachableWithNot s → ReachableWithNot (PropertyFlags.not s)

/-- The representation invariant of the fields that `setHasProperty` builds. -/
structure WF (s : PropertyFlags) : Prop where
  flipped : s._trailingFlipped = false
  lower : s._maxFlag = INT_MIN ∨ -1 ≤ s._maxFlag
  size : s._maxFlag + 1 ≤ s._flags.length
  above : ∀ i, s._maxFlag < i → QBitArray.testBit s._flags i = false
  top : 0 ≤ s._maxFlag → QBitArray.testBit s._flags s._maxFlag = true
  minLe : ∀ i, QBitArray.testBit s._flags i = true → s._minFlag ≤ i
  minNonneg : 0 ≤ s._minFlag

end PropertyFlags

namespace PropertyFlags

/-- The positions at which the header loop and the flag loop of `decode` call
`encodedBits.at(bitAt)`: `0 ..` the first clear bit (or the end of the array), then
`flagsStartAt .. expectedBitCount - 1`. -/
def decodeReads (fromEncodedBytes : QByteArray) : List Nat :=
  let bits := encodedBits fromEncodedBytes
  let bitAt := leadingOnes bits
  let encodedByteCount := bitAt + 1
  let expectedBitCount := encodedByteCount * BITS_PER_BYTE
  let flagsStartAt := bitAt + 1
  List.range (min (bitAt + 1) bits.length) ++
    (List.range (expectedBitCount - flagsStartAt)).map fun (k : Nat) => flagsStartAt + k

/-- The body of the packing loops of `encode` with the index of `output.at(..)` and
`output[..]` checked: `none` when it is outside the byte array. -/
def packBitChecked (output : QByteArray) (outputIndex : Nat) (bitValue : Nat) :
    Option QByteArray :=
  if outputIndex / BITS_PER_BYTE < output.length then
    some (packBit output outputIndex bitValue)
  else
    none

/-- The second packing loop of `encode` with every index checked: `none` when
`_flags[flagIndex]` or the output index is out of range. -/
def packFlagsChecked (flags : QBitArray) (lengthInBytes : Nat) :
    List Nat → QByteArray → Option QByteArray
  | [], output => some output
  | flagIndex :: rest, output =>
    match flags[flagIndex]? with
    | none => none
    | some bit =>
      match packBitChecked output (lengthInBytes + flagIndex) (if bit then 1 else 0) with
      | none => none
      | some output => packFlagsChecked flags lengthInBytes rest output

/-- The first packing loop of `encode` with every index checked. -/
def packHeaderChecked (lengthInBytes : Int) : List Nat → QByteArray → Option QByteArray
  | [], output => some output
  | i :: rest, output =>
    match packBitChecked output i (if (i : Int) < lengthInBytes - 1 then 1 else 0) with
    | none => none
    | some output => packHeaderChecked lengthInBytes rest output

/-- Method `encode()` with every array index checked: `none` when one of the two
packing loops indexes outside `output` or `_flags`. -/
def encodeChecked (s : PropertyFlags) : Option QByteArray :=
  if s._maxFlag < s._minFlag then
    some (List.replicate 1 0)
  else
    let lengthInBytes : Int := Int.tdiv s._maxFlag ((BITS_PER_BYTE : Int) - 1) + 1
    let output : QByteArray := List.replicate lengthInBytes.toNat 0
    match packHeaderChecked lengthInBytes (List.range lengthInBytes.toNat) output with
    | none => none
    | some output =>
      packFlagsChecked s._flags lengthInBytes.toNat (List.range (s._maxFlag + 1).toNat) output

/-- Fields reachable from the empty field by `setHasProperty` (indices `≥ 0`), by
`decode` of an input it stays within, and by `|`, `+`, `<<` and `-`. -/
inductive Reachable : PropertyFlags → Prop
  | empty : Reachable empty
  | set (s : PropertyFlags) (i : Int) (v : Bool) :
      Reachable s → 0 ≤ i → Reachable (setHasProperty s i v)
  | decode (s r : PropertyFlags) (bytes : QByteArray) :
      Reachable s → PropertyFlags.decode s bytes = some r → Reachable r
  | or (a b : PropertyFlags) : Reachable a → Reachable b → Reachable (PropertyFlags.or a b)
  | add (a b : PropertyFlags) : Reachable a → Reachable b → Reachable (PropertyFlags.add a b)
  | shl (a b : PropertyFlags) : Reachable a → Reachable b → Reachable (PropertyFlags.shl a b)
  | sub (a b : PropertyFlags) : Reachable a → Reachable b → Reachable (PropertyFlags.sub a b)

end PropertyFlags

/-! # Attributes (libraries/metavoxels/src/AttributeRegistry.h)

Conventions.  A value slot (`void*` reinterpreted as `T`) is a value of `T`; the
operators that `merge` needs from `T` are collected in `ValueOps`.  The array
`void* children[]` of `MERGE_COUNT` entries is a function on `Fin 8`.  `QHash` (Qt)
is an association list; a null `AttributePointer` is `none`.  The `Bitstream` (not part
of these sources) is a type parameter of `AttributeCodec`; for `InlineAttribute` it is
modelled from the spec. -/

namespace Metavoxel

/-- Constant `Attribute::MERGE_COUNT`. -/
abbrev MERGE_COUNT : Nat := 8

/-- The operators of the value type `T` used by `SimpleInlineAttribute<T, bits>::merge`. -/
structure ValueOps (T : Type) where
  /-- Operator `+=` of `T`. -/
  add : T → T → T
  /-- Operator `/=` of `T`, applied to the `int` constant `MERGE_COUNT`. -/
  divInt : T → Int → T
  /-- Operator `==` of `T`. -/
  eq : T → T → Bool

/-- Method `SimpleInlineAttribute<T, bits>::merge(parent, children)`: the value left in
the parent slot and the returned `allChildrenEqual`. -/
def merge {T : Type} (ops : ValueOps T) (_parent : T) (children : Fin 8 → T) : T × Bool :=
  let merged := children 0
  let allChildrenEqual := true
  let r := ((List.finRange MERGE_COUNT).tail).foldl
    (fun (st : T × Bool) i =>
      (ops.add st.1 (children i), st.2 && ops.eq (children 0) (children i)))
    (merged, allChildrenEqual)
  (ops.divInt r.1 (MERGE_COUNT : Int), r.2)

/-- Exact rational arithmetic as the value type. -/
def ratOps : ValueOps ℚ where
  add a b := a + b
  divInt a n := a / (n : ℚ)
  eq a b := decide (a = b)

/-- Exact integer arithmetic as the value type; `/=` truncates as in C++. -/
def intOps : ValueOps Int where
  add a b := a + b
  divInt a n := Int.tdiv a n
  eq a b := decide (a = b)

/-- An unsigned 32-bit integer as the value type: values are below `2^32`, `+=` wraps
modulo `2^32`, and the `int` divisor is converted to `unsigned` before `/=`. -/
def u32Ops : ValueOps Nat where
  add a b := (a + b) % 2 ^ 32
  divInt a n := a / (n % 2 ^ 32).toNat
  eq a b := decide (a = b)

/-- An attribute object: its identity and its name (`getName()`). -/
structure Attribute where
  id : Nat
  name : String
  deriving DecidableEq

/-- Pointer `AttributePointer`; `none` is the null (default-constructed) pointer. -/
abbrev AttributePointer := Option Attribute

/-- Qt `QHash<QString, AttributePointer>`. -/
abbrev QHash := List (String × AttributePointer)

/-- Qt `QHash::value(key)`: the mapped value, or a default-constructed one. -/
def QHash.value (h : QHash) (key : String) : AttributePointer :=
  match h.lookup key with
  | some pointer => pointer
  | none => none

/-- Qt `QHash::contains(key)`. -/
def QHash.contains (h : QHash) (key : String) : Bool :=
  (h.lookup key).isSome

/-- Qt `QHash::size()`. -/
def QHash.size (h : QHash) : Nat := h.length

/-- The member of `AttributeRegistry` that the lookups use. -/
structure AttributeRegistry where
  _attributes : QHash
  deriving DecidableEq

/-- Method `AttributeRegistry::getAttribute(name) const`: the registry afterwards and
the returned pointer. -/
def getAttribute (r : AttributeRegistry) (name : String) :
    AttributeRegistry × AttributePointer :=
  (r, QHash.value r._attributes name)

/-- Modelled from the spec: `AttributeRegistry::registerAttribute(AttributePointer)`, of
which the sources hold the declaration only.  It "returns the descriptor that is now
canonical for that name — either the one passed in (first registration) or the
pre-existing one"; "registering the same name twice returns the already-registered
descriptor rather than replacing it". -/
def registerAttribute (r : AttributeRegistry) (attr : Attribute) :
    AttributeRegistry × AttributePointer :=
  match r._attributes.lookup attr.name with
  | some existing => (r, existing)
  | none => ({ _attributes := (attr.name, some attr) :: r._attributes }, some attr)

/-- The pure virtual `read` and `write` of an `Attribute`, over an abstract bitstream:
`read` gives the stream and the value slot afterwards, `write` the stream afterwards. -/
structure AttributeCodec (Bitstream Value : Type) where
  read : Bitstream → Value → Bool → Bitstream × Value
  write : Bitstream → Value → Bool → Bitstream

/-- Method `Attribute::readDelta(in, value, reference, isLeaf)`, the default body. -/
def readDelta {Bitstream Value : Type} (a : AttributeCodec Bitstream Value)
    (input : Bitstream) (value : Value) (_reference : Value) (isLeaf : Bool) :
    Bitstream × Value :=
  a.read input value isLeaf

/-- Method `Attribute::writeDelta(out, value, reference, isLeaf)`, the default body. -/
def writeDelta {Bitstream Value : Type} (a : AttributeCodec Bitstream Value)
    (out : Bitstream) (value : Value) (_reference : Value) (isLeaf : Bool) : Bitstream :=
  a.write out value isLeaf

end Metavoxel

namespace Metavoxel

/-- Modelled from the spec: the bitstream of the transport layer (`Bitstream.h` is not
part of the sources), "a bit-oriented read/write cursor supporting read/write N bits".
The stream holds its bits in the order written; `position` is the read cursor. -/
structure Bitstream where
  data : List Bool
  position : Nat
  deriving DecidableEq

/-- The number held by a sequence of bits, lowest bit first. -/
def bitsToNat : List Bool → Nat
  | [] => 0
  | b :: rest => b.toNat + 2 * bitsToNat rest

/-- Modelled from the spec: `Bitstream::write(data, bits)`, "write N bits": the low
`bits` bits of the slot are appended, lowest first. -/
def Bitstream.write (s : Bitstream) (slot : Nat) (bits : Nat) : Bitstream :=
  { s with data := s.data ++ (List.range bits).map fun (k : Nat) => slot.testBit k }

/-- Modelled from the spec: `Bitstream::read(data, bits)`, "read N bits": `bits` bits
are consumed at the cursor and stored in the low `bits` bits of the slot, whose other
bits are kept; a bit past the end of the stream reads as 0. -/
def Bitstream.read (s : Bitstream) (slot : Nat) (bits : Nat) : Bitstream × Nat :=
  ({ s with position := s.position + bits },
    slot / 2 ^ bits * 2 ^ bits +
      bitsToNat ((List.range bits).map fun (k : Nat) => s.data.getD (s.position + k) false))

/-- The template arguments and the member of `InlineAttribute<T, bits>`: the number of
bits streamed, the width of `T` in bits, and `_defaultValue` as the bit pattern of its
value slot. -/
structure InlineAttribute where
  bits : Nat
  width : Nat
  _defaultValue : Nat

/-- Function `decodeInline<T>(value)`: the slot reinterpreted as a `T`, its low
`width` bits. -/
def InlineAttribute.decodeInline (a : InlineAttribute) (value : Nat) : Nat :=
  value % 2 ^ a.width

/-- Method `InlineAttribute::getDefaultValue()`. -/
def InlineAttribute.getDefaultValue (a : InlineAttribute) : Nat := a._defaultValue

/-- Method `InlineAttribute::equal(first, second)`. -/
def InlineAttribute.equal (a : InlineAttribute) (first second : Nat) : Bool :=
  a.decodeInline first == a.decodeInline second

/-- Method `InlineAttribute<T, bits>::read(in, value, isLeaf)`: the stream and the
value slot afterwards. -/
def InlineAttribute.read (a : InlineAttribute) (input : Bitstream) (value : Nat)
    (isLeaf : Bool) : Bitstream × Nat :=
  if isLeaf then
    Bitstream.read input a.getDefaultValue a.bits
  else
    (input, value)

/-- Method `InlineAttribute<T, bits>::write(out, value, isLeaf)`: the stream afterwards. -/
def InlineAttribute.write (a : InlineAttribute) (out : Bitstream) (value : Nat)
    (isLeaf : Bool) : Bitstream :=
  if isLeaf then Bitstream.write out value a.bits else out

end Metavoxel

namespace Metavoxel

/-- The value of a signed 32-bit `int` holding `x` modulo `2^32` (two's complement). -/
def wrapInt32 (x : Int) : Int :=
  (x + 2147483648) % 4294967296 - 2147483648

/-- A signed 32-bit integer as the value type: `+=` and `/=` are those of `int`, with
truncating division; a result outside the range of `int` is taken modulo `2^32`. -/
def i32Ops : ValueOps Int where
  add a b := wrapInt32 (a + b)
  divInt a n := wrapInt32 (Int.tdiv a n)
  eq a b := decide (a = b)

/-- The successive exact values of `merged` in the loop of `merge`: `children[0]`,
`children[0] + children[1]`, and so on up to the sum of all eight. -/
def runningSums (children : Fin 8 → Int) : List Int :=
  ((List.finRange MERGE_COUNT).tail).scanl (fun merged i => merged + children i) (children 0)

end Metavoxel

namespace PropertyFlags

/-! ## Facts about the bit array operations -/

namespace QBitArray

theorem getD_range_map (f : Nat → Bool) (n i : Nat) :
    ((List.range n).map f).getD i false = (decide (i < n) && f i) := by
  rw [List.getD_eq_getElem?_getD, List.getElem?_map]
  by_cases h : i < n
  · simp [List.getElem?_range h, h]
  · have : (List.range n)[i]? = none := by
      apply List.getElem?_eq_none
      simpa using h
    simp [this, h]

theorem getD_of_length_le (a : QBitArray) (i : Nat) (h : a.length ≤ i) :
    a.getD i false = false := by
  rw [List.getD_eq_getElem?_getD, List.getElem?_eq_none h]
  rfl

theorem length_resize (a : QBitArray) (n : Int) : (resize a n.toNat).length = n.toNat := by
  simp [resize]

theorem testBit_resize (a : QBitArray) (n i : Int) :
    testBit (resize a n.toNat) i = (decide (i < n) && testBit a i) := by
  unfold testBit resize
  by_cases h : 0 ≤ i
  · simp only [h, if_true, getD_range_map]
    congr 1
    apply decide_eq_decide.mpr
    omega
  · simp [h]

theorem length_setBit (a : QBitArray) (i : Int) (v : Bool) :
    (setBit a i v).length = a.length := by
  unfold setBit
  split <;> simp

theorem testBit_setBit (a : QBitArray) (i j : Int) (v : Bool) :
    testBit (setBit a i v) j =
      if j = i ∧ 0 ≤ i ∧ i < a.length then v else testBit a j := by
  unfold testBit setBit
  by_cases hi : 0 ≤ i
  · by_cases hj : 0 ≤ j
    · simp only [hi, hj, if_true, true_and]
      rw [List.getD_eq_getElem?_getD, List.getElem?_set, List.getD_eq_getElem?_getD]
      by_cases hij : j = i
      · subst hij
        by_cases hl : j < a.length
        · have : j.toNat < a.length := by omega
          simp [this, hl]
        · have h2 : ¬ j.toNat < a.length := by omega
          have h3 : a[j.toNat]? = none := List.getElem?_eq_none (by omega)
          simp [h2, hl, h3]
      · have : i.toNat ≠ j.toNat := by omega
        simp [this, hij]
    · have : j ≠ i := by omega
      simp [hj, this]
  · by_cases hj : 0 ≤ j
    · simp [hi, hj]
    · simp [hi, hj]

theorem testBit_of_length_le (a : QBitArray) (i : Int) (h : (a.length : Int) ≤ i) :
    testBit a i = false := by
  unfold testBit
  split
  · exact getD_of_length_le a _ (by omega)
  · rfl

theorem testBit_neg (a : QBitArray) (i : Int) (h : i < 0) : testBit a i = false := by
  unfold testBit
  simp [not_le.mpr h]

theorem length_or (a b : QBitArray) : (or a b).length = max a.length b.length := by
  simp [or]

theorem length_and (a b : QBitArray) : (and a b).length = max a.length b.length := by
  simp [and]

theorem length_xor (a b : QBitArray) : (xor a b).length = max a.length b.length := by
  simp [xor]

theorem length_not (a : QBitArray) : (not a).length = a.length := by
  simp [not]

theorem testBit_or (a b : QBitArray) (i : Int) :
    testBit (or a b) i = (testBit a i || testBit b i) := by
  unfold testBit or
  by_cases h : 0 ≤ i
  · simp only [h, if_true, getD_range_map]
    by_cases hl : i.toNat < max a.length b.length
    · simp [hl]
    · have ha := getD_of_length_le a i.toNat (by omega)
      have hb := getD_of_length_le b i.toNat (by omega)
      rw [ha, hb]
      simp [hl]
  · simp [h]

theorem testBit_and (a b : QBitArray) (i : Int) :
    testBit (and a b) i = (testBit a i && testBit b i) := by
  unfold testBit and
  by_cases h : 0 ≤ i
  · simp only [h, if_true, getD_range_map]
    by_cases hl : i.toNat < max a.length b.length
    · simp [hl]
    · have ha := getD_of_length_le a i.toNat (by omega)
      rw [ha]
      simp [hl]
  · simp [h]

theorem testBit_xor (a b : QBitArray) (i : Int) :
    testBit (xor a b) i = Bool.xor (testBit a i) (testBit b i) := by
  unfold testBit xor
  by_cases h : 0 ≤ i
  · simp only [h, if_true, getD_range_map]
    by_cases hl : i.toNat < max a.length b.length
    · simp [hl]
    · have ha := getD_of_length_le a i.toNat (by omega)
      have hb := getD_of_length_le b i.toNat (by omega)
      rw [ha, hb]
      simp [hl]
  · simp [h]

theorem testBit_not (a : QBitArray) (i : Int) (h0 : 0 ≤ i) (h : i < a.length) :
    testBit (not a) i = !testBit a i := by
  unfold testBit not
  have hl : i.toNat < a.length := by omega
  simp only [h0, if_true]
  rw [List.getD_eq_getElem?_getD, List.getD_eq_getElem?_getD, List.getElem?_map,
    List.getElem?_eq_getElem hl]
  rfl

end QBitArray

end PropertyFlags

namespace PropertyFlags

/-! ## The shrink loop -/

theorem shinkLoop_bounds (flags : QBitArray) (n : Nat) :
    -1 ≤ shinkLoop flags n ∧ shinkLoop flags n < n := by
  induction n with
  | zero => simp [shinkLoop]
  | succ n ih =>
    unfold shinkLoop
    split
    · constructor <;> push_cast <;> omega
    · constructor
      · exact ih.1
      · have := ih.2
        push_cast
        omega

theorem shinkLoop_top (flags : QBitArray) (n : Nat) (h : 0 ≤ shinkLoop flags n) :
    QBitArray.testBit flags (shinkLoop flags n) = true := by
  induction n with
  | zero => simp [shinkLoop] at h
  | succ n ih =>
    unfold shinkLoop at h ⊢
    split
    · assumption
    · rename_i hb
      rw [if_neg hb] at h
      exact ih h

theorem shinkLoop_above (flags : QBitArray) (n : Nat) (i : Int)
    (h1 : shinkLoop flags n < i) (h2 : i < n) : QBitArray.testBit flags i = false := by
  induction n with
  | zero =>
    have := (shinkLoop_bounds flags 0).1
    simp at h2
    omega
  | succ n ih =>
    unfold shinkLoop at h1
    by_cases hb : QBitArray.testBit flags (n : Int) = true
    · rw [if_pos hb] at h1
      push_cast at h2
      omega
    · rw [if_neg hb] at h1
      by_cases hi : i = n
      · subst hi
        simpa using hb
      · apply ih h1
        push_cast at h2
        omega

theorem shinkIfNeeded_maxFlag (t : PropertyFlags) :
    (shinkIfNeeded t)._maxFlag =
      if 0 ≤ t._maxFlag then shinkLoop t._flags (t._maxFlag.toNat + 1) else t._maxFlag := by
  unfold shinkIfNeeded
  dsimp only
  split_ifs <;> rfl

theorem shinkIfNeeded_minFlag (t : PropertyFlags) :
    (shinkIfNeeded t)._minFlag = t._minFlag := by
  unfold shinkIfNeeded
  dsimp only
  split_ifs <;> rfl

theorem shinkIfNeeded_trailingFlipped (t : PropertyFlags) :
    (shinkIfNeeded t)._trailingFlipped = t._trailingFlipped := by
  unfold shinkIfNeeded
  dsimp only
  split_ifs <;> rfl

theorem shinkIfNeeded_flags (t : PropertyFlags) :
    (shinkIfNeeded t)._flags = t._flags ∨
    (shinkIfNeeded t)._flags = QBitArray.resize t._flags
      ((if 0 ≤ t._maxFlag then shinkLoop t._flags (t._maxFlag.toNat + 1)
        else t._maxFlag) + 1).toNat := by
  unfold shinkIfNeeded
  dsimp only
  split_ifs <;> first | exact Or.inl rfl | exact Or.inr rfl

/-- Entered with `_maxFlag ≥ -1`, `shinkIfNeeded()` passes a size `≥ 0` to `resize`. -/
theorem shinkIfNeededChecked_eq_some (t : PropertyFlags) (h : -1 ≤ t._maxFlag) :
    shinkIfNeededChecked t = some (shinkIfNeeded t) := by
  have hb := (shinkLoop_bounds t._flags (t._maxFlag.toNat + 1)).1
  unfold shinkIfNeededChecked shinkIfNeeded
  dsimp only
  split_ifs <;> first | rfl | omega

/-- Entered with `_maxFlag < -1`, `shinkIfNeeded()` passes the negative size
`_maxFlag + 1` to `resize`. -/
theorem shinkIfNeededChecked_eq_none (t : PropertyFlags) (h : t._maxFlag < -1) :
    shinkIfNeededChecked t = none := by
  unfold shinkIfNeededChecked
  dsimp only
  split_ifs <;> first | rfl | omega

/-- What `shinkIfNeeded` does to a state whose bits above `_maxFlag` are clear. -/
theorem shinkIfNeeded_spec (t : PropertyFlags)
    (hlow : t._maxFlag = INT_MIN ∨ -1 ≤ t._maxFlag)
    (habove : ∀ i, t._maxFlag < i → QBitArray.testBit t._flags i = false)
    (hsize : t._maxFlag + 1 ≤ t._flags.length) :
    (shinkIfNeeded t)._minFlag = t._minFlag ∧
    (shinkIfNeeded t)._trailingFlipped = t._trailingFlipped ∧
    (shinkIfNeeded t)._maxFlag ≤ t._maxFlag ∧
    ((shinkIfNeeded t)._maxFlag = INT_MIN ∨ -1 ≤ (shinkIfNeeded t)._maxFlag) ∧
    (0 ≤ (shinkIfNeeded t)._maxFlag →
      QBitArray.testBit t._flags (shinkIfNeeded t)._maxFlag = true) ∧
    (∀ i, (shinkIfNeeded t)._maxFlag < i → QBitArray.testBit t._flags i = false) ∧
    (∀ j, QBitArray.testBit (shinkIfNeeded t)._flags j = QBitArray.testBit t._flags j) ∧
    (shinkIfNeeded t)._maxFlag + 1 ≤ (shinkIfNeeded t)._flags.length := by
  -- the value of `_maxFlag` after the loop
  obtain ⟨m, hm⟩ : ∃ m, m = (if 0 ≤ t._maxFlag then
      shinkLoop t._flags (t._maxFlag.toNat + 1) else t._maxFlag) := ⟨_, rfl⟩
  have hmle : m ≤ t._maxFlag := by
    rw [hm]; split
    · have := (shinkLoop_bounds t._flags (t._maxFlag.toNat + 1)).2
      push_cast at this; omega
    · exact le_refl _
  have hmlow : m = INT_MIN ∨ -1 ≤ m := by
    rw [hm]; split
    · exact Or.inr (shinkLoop_bounds t._flags _).1
    · exact hlow
  have hmtop : 0 ≤ m → QBitArray.testBit t._flags m = true := by
    intro h0
    by_cases hc : 0 ≤ t._maxFlag
    · rw [if_pos hc] at hm
      rw [hm] at h0 ⊢
      exact shinkLoop_top _ _ h0
    · rw [if_neg hc] at hm
      omega
  have hmabove : ∀ i, m < i → QBitArray.testBit t._flags i = false := by
    intro i hi
    by_cases hc : 0 ≤ t._maxFlag
    · rw [if_pos hc] at hm
      by_cases hit : t._maxFlag < i
      · exact habove i hit
      · apply shinkLoop_above t._flags (t._maxFlag.toNat + 1) i
        · rw [← hm]; exact hi
        · push_cast; omega
    · rw [if_neg hc] at hm
      exact habove i (by omega)
  have hmax : (shinkIfNeeded t)._maxFlag = m := by
    rw [hm, shinkIfNeeded_maxFlag]
  have hflags : (shinkIfNeeded t)._flags = t._flags ∨
      (shinkIfNeeded t)._flags = QBitArray.resize t._flags (m + 1).toNat := by
    rw [hm]
    exact shinkIfNeeded_flags t
  refine ⟨shinkIfNeeded_minFlag t, shinkIfNeeded_trailingFlipped t, ?_, ?_, ?_, ?_, ?_, ?_⟩
  · rw [hmax]; exact hmle
  · rw [hmax]; exact hmlow
  · rw [hmax]; exact hmtop
  · rw [hmax]; exact hmabove
  · intro j
    rcases hflags with h | h
    · rw [h]
    · rw [h, QBitArray.testBit_resize]
      by_cases hj : j < m + 1
      · simp [hj]
      · rw [hmabove j (by omega)]
        simp
  · rw [hmax]
    rcases hflags with h | h
    · rw [h]; omega
    · rw [h, QBitArray.length_resize]
      unfold INT_MIN at hmlow
      omega

end PropertyFlags

namespace PropertyFlags

/-! ## Well-formed states of a field that was never complemented -/

theorem WF_empty : WF empty where
  flipped := rfl
  lower := Or.inl rfl
  size := by simp [empty, INT_MIN]
  above := by intro i _; simp [empty, QBitArray.testBit]
  top := by intro h; simp [empty, INT_MIN] at h
  minLe := by intro i h; simp [empty, QBitArray.testBit] at h
  minNonneg := by simp [empty, INT_MAX]

theorem getHasProperty_of_WF {s : PropertyFlags} (h : WF s) (j : Int) :
    getHasProperty s j = QBitArray.testBit s._flags j := by
  unfold getHasProperty
  split
  · rename_i hj
    rw [h.flipped, h.above j hj]
  · rfl

theorem setHasProperty_grow (s : PropertyFlags) (i : Int) (h : s._maxFlag < i) :
    setHasProperty s i true =
      { s with
        _minFlag := if i < s._minFlag then i else s._minFlag
        _maxFlag := i
        _flags := QBitArray.setBit (QBitArray.resize s._flags (i + 1).toNat) i true } := by
  unfold setHasProperty
  simp [h]

theorem setHasProperty_above_false (s : PropertyFlags) (i : Int) (h : s._maxFlag < i) :
    setHasProperty s i false = s := by
  unfold setHasProperty
  simp [h]

theorem setHasProperty_inner_true (s : PropertyFlags) (i : Int) (h : ¬ s._maxFlag < i) :
    setHasProperty s i true =
      { s with
        _minFlag := if i < s._minFlag then i else s._minFlag
        _flags := QBitArray.setBit s._flags i true } := by
  unfold setHasProperty
  simp [h]

theorem setHasProperty_inner_false (s : PropertyFlags) (i : Int) (h : i < s._maxFlag) :
    setHasProperty s i false = { s with _flags := QBitArray.setBit s._flags i false } := by
  unfold setHasProperty
  have h1 : ¬ s._maxFlag < i := by omega
  have h2 : ¬ i = s._maxFlag := by omega
  simp [h1, h2]

theorem setHasProperty_top_false (s : PropertyFlags) (i : Int) (h : i = s._maxFlag) :
    setHasProperty s i false =
      shinkIfNeeded { s with _flags := QBitArray.setBit s._flags i false } := by
  unfold setHasProperty
  have h1 : ¬ s._maxFlag < i := by omega
  simp [h1, h]

/-- The call of `shinkIfNeeded()` made by `setHasProperty(i, false)` with
`i = _maxFlag ≥ 0` passes a size `≥ 0` to `resize`. -/
theorem setHasProperty_top_false_checked (s : PropertyFlags) (i : Int) (hi : 0 ≤ i)
    (h : i = s._maxFlag) :
    shinkIfNeededChecked { s with _flags := QBitArray.setBit s._flags i false } =
      some (setHasProperty s i false) := by
  rw [setHasProperty_top_false s i h]
  exact shinkIfNeededChecked_eq_some _ (by dsimp only; omega)

/-- The state after `setHasProperty` on a well-formed field: well-formed again, and
the stored bits are those of before with bit `i` replaced by `v`. -/
theorem setHasProperty_spec {s : PropertyFlags} (h : WF s) (i : Int) (hi : 0 ≤ i) (v : Bool) :
    WF (setHasProperty s i v) ∧
    ∀ j, QBitArray.testBit (setHasProperty s i v)._flags j =
      if j = i then v else QBitArray.testBit s._flags j := by
  have hlow := h.lower
  have hsize := h.size
  by_cases hgt : s._maxFlag < i
  · cases v
    · -- early return
      rw [setHasProperty_above_false s i hgt]
      refine ⟨h, fun j => ?_⟩
      split
      · rename_i hj; subst hj; exact h.above _ hgt
      · rfl
    · rw [setHasProperty_grow s i hgt]
      have hbits : ∀ j, QBitArray.testBit
          (QBitArray.setBit (QBitArray.resize s._flags (i + 1).toNat) i true) j =
          if j = i then true else QBitArray.testBit s._flags j := by
        intro j
        rw [QBitArray.testBit_setBit, QBitArray.length_resize, QBitArray.testBit_resize]
        by_cases hj : j = i
        · subst hj
          have : j < ((j + 1).toNat : Int) := by omega
          simp [hi, this]
        · simp only [hj, false_and, if_false]
          by_cases hji : j < i + 1
          · simp [hji]
          · rw [h.above j (by omega)]
            simp
      refine ⟨⟨h.flipped, Or.inr (by dsimp only; omega), ?_, ?_, ?_, ?_, ?_⟩, hbits⟩
      · dsimp only
        rw [QBitArray.length_setBit, QBitArray.length_resize]
        omega
      · intro j hj
        dsimp only at hj ⊢
        rw [hbits, if_neg (by omega)]
        exact h.above j (by omega)
      · intro _
        dsimp only
        rw [hbits, if_pos rfl]
      · intro j hj
        dsimp only at hj ⊢
        rw [hbits] at hj
        have hm := h.minLe j
        split at hj
        · split <;> omega
        · have := hm hj
          split <;> omega
      · dsimp only
        have := h.minNonneg
        split <;> omega
  · have hle : i ≤ s._maxFlag := by omega
    have hlen : i < s._flags.length := by omega
    have hbits : ∀ j, QBitArray.testBit (QBitArray.setBit s._flags i v) j =
        if j = i then v else QBitArray.testBit s._flags j := by
      intro j
      rw [QBitArray.testBit_setBit]
      by_cases hj : j = i
      · simp [hj, hi, hlen]
      · simp [hj]
    cases v
    · by_cases htop : i = s._maxFlag
      · rw [setHasProperty_top_false s i htop]
        have hsp := shinkIfNeeded_spec
          { s with _flags := QBitArray.setBit s._flags i false }
          (Or.inr (by dsimp only; omega))
          (by
            intro j hj
            dsimp only at hj ⊢
            rw [hbits, if_neg (by omega)]
            exact h.above j hj)
          (by dsimp only; rw [QBitArray.length_setBit]; exact hsize)
        obtain ⟨hmin, hflip, _, hl, ht, ha, hb, hs⟩ := hsp
        dsimp only at hmin hflip hl ht ha hb hs
        refine ⟨⟨?_, hl, hs, ?_, ?_, ?_, ?_⟩, ?_⟩
        · rw [hflip]; exact h.flipped
        · intro j hj
          rw [hb]
          exact ha j hj
        · intro h0
          rw [hb]
          exact ht h0
        · intro j hj
          rw [hb, hbits] at hj
          rw [hmin]
          split at hj
          · cases hj
          · exact h.minLe j hj
        · rw [hmin]; exact h.minNonneg
        · intro j
          rw [hb, hbits]
      · rw [setHasProperty_inner_false s i (by omega)]
        refine ⟨⟨h.flipped, hlow, ?_, ?_, ?_, ?_, h.minNonneg⟩, hbits⟩
        · dsimp only; rw [QBitArray.length_setBit]; exact hsize
        · intro j hj
          dsimp only at hj ⊢
          rw [hbits, if_neg (by omega)]
          exact h.above j hj
        · intro h0
          dsimp only at h0 ⊢
          rw [hbits, if_neg (by omega)]
          exact h.top h0
        · intro j hj
          dsimp only at hj ⊢
          rw [hbits] at hj
          split at hj
          · cases hj
          · exact h.minLe j hj
    · rw [setHasProperty_inner_true s i hgt]
      refine ⟨⟨h.flipped, hlow, ?_, ?_, ?_, ?_, ?_⟩, hbits⟩
      · dsimp only; rw [QBitArray.length_setBit]; exact hsize
      · intro j hj
        dsimp only at hj ⊢
        rw [hbits, if_neg (by omega)]
        exact h.above j hj
      · intro h0
        dsimp only at h0 ⊢
        rw [hbits]
        split
        · rfl
        · exact h.top h0
      · intro j hj
        dsimp only at hj ⊢
        rw [hbits] at hj
        have hm := h.minLe j
        split at hj
        · split <;> omega
        · have := hm hj
          split <;> omega
      · dsimp only
        have := h.minNonneg
        split <;> omega

theorem setHasProperty_WF {s : PropertyFlags} (h : WF s) (i : Int) (hi : 0 ≤ i) (v : Bool) :
    WF (setHasProperty s i v) :=
  (setHasProperty_spec h i hi v).1

theorem getHasProperty_setHasProperty {s : PropertyFlags} (h : WF s) (i : Int) (hi : 0 ≤ i)
    (v : Bool) (j : Int) :
    getHasProperty (setHasProperty s i v) j = if j = i then v else getHasProperty s j := by
  rw [getHasProperty_of_WF (setHasProperty_WF h i hi v), getHasProperty_of_WF h]
  exact (setHasProperty_spec h i hi v).2 j

end PropertyFlags

namespace PropertyFlags

/-! ## The packing loops of `encode` -/

theorem length_packBit (out : QByteArray) (p b : Nat) :
    (packBit out p b).length = out.length := by
  simp [packBit]

theorem testBit_bitValue_shift (b : Bool) (s t : Nat) :
    ((if b then 1 else 0 : Nat) <<< s).testBit t = (decide (t = s) && b) := by
  rw [Nat.testBit_shiftLeft]
  cases b
  · simp
  · by_cases h : t = s
    · subst h; simp
    · by_cases h2 : t ≥ s
      · have h3 : t - s ≠ 0 := by omega
        have : Nat.testBit 1 (t - s) = false := by
          cases hb : Nat.testBit 1 (t - s)
          · rfl
          · exact absurd (Nat.testBit_one_eq_true_iff_self_eq_zero.mp hb) h3
        simp [h, this]
      · simp [h, h2]

/-- Packing one bit sets stream position `p` (if the bit is 1) and touches nothing else. -/
theorem streamBit_packBit (out : QByteArray) (p : Nat) (b : Bool) (q : Nat)
    (hp : p < 8 * out.length) :
    streamBit (packBit out p (if b then 1 else 0)) q =
      (streamBit out q || (decide (q = p) && b)) := by
  unfold streamBit packBit
  simp only [BITS_PER_BYTE]
  rw [List.getD_eq_getElem?_getD, List.getElem?_set, List.getD_eq_getElem?_getD,
    List.getD_eq_getElem?_getD]
  have hlen : p / 8 < out.length := by omega
  by_cases hq : p / 8 = q / 8
  · rw [if_pos hq, if_pos hlen, ← hq]
    simp only [Option.getD_some]
    rw [Nat.testBit_lor, testBit_bitValue_shift]
    congr 2
    apply decide_eq_decide.mpr
    omega
  · rw [if_neg hq]
    have : ¬ q = p := by
      intro h; subst h; exact hq rfl
    simp [this]

/-- A packing loop over positions `pos k`, `k ∈ ks`, with bit values `val k`. -/
theorem streamBit_foldl_packBit (pos : Nat → Nat) (val : Nat → Bool) (ks : List Nat)
    (out : QByteArray) (q : Nat) (hpos : ∀ k ∈ ks, pos k < 8 * out.length) :
    streamBit (ks.foldl (fun o k => packBit o (pos k) (if val k then 1 else 0)) out) q =
      (streamBit out q || ks.any fun k => decide (q = pos k) && val k) := by
  induction ks generalizing out with
  | nil => simp
  | cons k ks ih =>
    rw [List.foldl_cons, ih]
    · rw [streamBit_packBit _ _ _ _ (hpos k (List.mem_cons_self _ _))]
      simp [Bool.or_assoc]
    · intro k' hk'
      rw [length_packBit]
      exact hpos k' (List.mem_cons_of_mem _ hk')

theorem length_foldl_packBit (pos : Nat → Nat) (val : Nat → Nat) (ks : List Nat)
    (out : QByteArray) :
    (ks.foldl (fun o k => packBit o (pos k) (val k)) out).length = out.length := by
  induction ks generalizing out with
  | nil => rfl
  | cons k ks ih => rw [List.foldl_cons, ih, length_packBit]

theorem streamBit_replicate_zero (n q : Nat) : streamBit (List.replicate n 0) q = false := by
  unfold streamBit
  rw [List.getD_eq_getElem?_getD, List.getElem?_replicate]
  split <;> simp

/-- C++ division truncates; on a non-negative `_maxFlag` it is the floor. -/
theorem tdiv_seven (m : Nat) : Int.tdiv (m : Int) 7 = ((m / 7 : Nat) : Int) := by
  rw [Int.tdiv_eq_ediv (by omega) (by omega)]
  omega

/-- The branch of `encode` taken when some flag is tracked. -/
theorem encode_of_le (s : PropertyFlags) (h : ¬ s._maxFlag < s._minFlag) :
    encode s =
      (List.range (s._maxFlag + 1).toNat).foldl
        (fun out flagIndex =>
          packBit out ((Int.tdiv s._maxFlag 7 + 1).toNat + flagIndex)
            (if QBitArray.testBit s._flags (flagIndex : Int) then 1 else 0))
        ((List.range (Int.tdiv s._maxFlag 7 + 1).toNat).foldl
          (fun out i =>
            packBit out i (if decide ((i : Int) < Int.tdiv s._maxFlag 7 + 1 - 1) then 1 else 0))
          (List.replicate (Int.tdiv s._maxFlag 7 + 1).toNat 0)) := by
  unfold encode
  rw [if_neg h]
  simp [BITS_PER_BYTE]

theorem encode_of_lt (s : PropertyFlags) (h : s._maxFlag < s._minFlag) : encode s = [0] := by
  unfold encode
  rw [if_pos h]
  rfl

/-- Length of the encoding when some flag is tracked. -/
theorem length_encode (s : PropertyFlags) (h : ¬ s._maxFlag < s._minFlag) :
    (encode s).length = (Int.tdiv s._maxFlag 7 + 1).toNat := by
  rw [encode_of_le s h, length_foldl_packBit, length_foldl_packBit, List.length_replicate]

/-- Every bit of the encoding, when some flag is tracked and `_maxFlag = m ≥ 0`. -/
theorem streamBit_encode (s : PropertyFlags) (h : ¬ s._maxFlag < s._minFlag) (m : Nat)
    (hm : s._maxFlag = m) (q : Nat) :
    streamBit (encode s) q =
      (decide (q + 1 < m / 7 + 1) ||
        (decide (m / 7 + 1 ≤ q ∧ q ≤ m / 7 + 1 + m) &&
          QBitArray.testBit s._flags ((q - (m / 7 + 1) : Nat) : Int))) := by
  have hL : (Int.tdiv s._maxFlag 7 + 1).toNat = m / 7 + 1 := by
    rw [hm, tdiv_seven]
    omega
  have hM : (s._maxFlag + 1).toNat = m + 1 := by omega
  rw [encode_of_le s h, hL, hM]
  rw [streamBit_foldl_packBit (fun k => m / 7 + 1 + k)
    (fun k => QBitArray.testBit s._flags (k : Int))]
  · rw [streamBit_foldl_packBit (fun k => k)
      (fun i => decide ((i : Int) < Int.tdiv s._maxFlag 7 + 1 - 1))]
    · rw [streamBit_replicate_zero, Bool.false_or]
      congr 1
      · rw [Bool.eq_iff_iff]
        simp only [List.any_eq_true, List.mem_range, Bool.and_eq_true, decide_eq_true_eq]
        constructor
        · rintro ⟨k, hk, rfl, hlt⟩
          rw [hm, tdiv_seven] at hlt
          omega
        · intro hq
          refine ⟨q, by omega, rfl, ?_⟩
          rw [hm, tdiv_seven]
          omega
      · rw [Bool.eq_iff_iff]
        simp only [List.any_eq_true, List.mem_range, Bool.and_eq_true, decide_eq_true_eq]
        constructor
        · rintro ⟨k, hk, rfl, hb⟩
          refine ⟨by omega, ?_⟩
          rw [Nat.add_sub_cancel_left]
          exact hb
        · rintro ⟨⟨h1, h2⟩, hb⟩
          refine ⟨q - (m / 7 + 1), by omega, by omega, hb⟩
    · intro k hk
      rw [List.length_replicate]
      have := List.mem_range.mp hk
      omega
  · intro k hk
    rw [length_foldl_packBit, List.length_replicate]
    have := List.mem_range.mp hk
    omega

end PropertyFlags

namespace PropertyFlags

/-! ## The loops of `decode` -/

theorem mask_ne_zero (b k : Nat) : ((b &&& (1 <<< k)) != 0) = b.testBit k := by
  rw [Nat.one_shiftLeft, Nat.and_two_pow]
  cases h : b.testBit k <;> simp

theorem length_byteBits (b : Nat) : (byteBits b).length = 8 := by
  simp [byteBits, BITS_PER_BYTE]

theorem getElem?_byteBits (b k : Nat) (hk : k < 8) :
    (byteBits b)[k]? = some (b.testBit (7 - k)) := by
  unfold byteBits
  simp only [BITS_PER_BYTE]
  rw [List.getElem?_map, List.getElem?_range hk]
  simp only [Option.map_some', mask_ne_zero]
  congr 2
  omega

theorem streamBit_cons (b : Nat) (rest : QByteArray) (p : Nat) :
    streamBit (b :: rest) p = if p < 8 then b.testBit (7 - p) else streamBit rest (p - 8) := by
  unfold streamBit
  by_cases hp : p < 8
  · have h0 : p / 8 = 0 := by omega
    have h1 : p % 8 = p := by omega
    simp [hp, h0, h1]
  · have h0 : p / 8 = (p - 8) / 8 + 1 := by omega
    have h1 : p % 8 = (p - 8) % 8 := by omega
    rw [if_neg hp, h0, h1]
    rfl

/-- The bit array built by the first loop of `decode` is the byte array read as a
bit stream, most significant bit first. -/
theorem getElem?_encodedBits (bytes : QByteArray) (p : Nat) :
    (encodedBits bytes)[p]? =
      if p < 8 * bytes.length then some (streamBit bytes p) else none := by
  induction bytes generalizing p with
  | nil => simp [encodedBits]
  | cons b rest ih =>
    unfold encodedBits
    rw [List.getElem?_append, length_byteBits, streamBit_cons]
    by_cases hp : p < 8
    · rw [if_pos hp, getElem?_byteBits b p hp, if_pos hp, if_pos]
      simp only [List.length_cons]
      omega
    · rw [if_neg hp, ih, if_neg hp]
      simp only [List.length_cons]
      by_cases h2 : p - 8 < 8 * rest.length
      · rw [if_pos h2, if_pos (by omega)]
      · rw [if_neg h2, if_neg (by omega)]

/-- The header loop stops at the first clear bit. -/
theorem leadingOnes_eq (bits : QBitArray) (n : Nat)
    (hones : ∀ k, k < n → bits[k]? = some true) (hzero : bits[n]? = some false) :
    leadingOnes bits = n := by
  induction n generalizing bits with
  | zero =>
    cases bits with
    | nil => simp at hzero
    | cons b rest =>
      simp at hzero
      subst hzero
      rfl
  | succ n ih =>
    cases bits with
    | nil => simp at hzero
    | cons b rest =>
      have hb := hones 0 (by omega)
      simp at hb
      subst hb
      unfold leadingOnes
      rw [ih rest]
      · intro k hk
        have := hones (k + 1) (by omega)
        simpa using this
      · simpa using hzero

/-- The flag loop of `decode` on bits that are all inside the array: it succeeds, and
keeps the state well-formed, adding exactly the flags whose bit is set. -/
theorem readFlags_spec (bits : QBitArray) (start : Nat) (ks : List Nat) (s : PropertyFlags)
    (hs : WF s) (hin : ∀ k ∈ ks, start + k < bits.length) :
    ∃ r, readFlags bits start ks s = some r ∧ WF r ∧
      ∀ j, QBitArray.testBit r._flags j = true ↔
        (QBitArray.testBit s._flags j = true ∨
          ∃ k ∈ ks, (k : Int) = j ∧ bits[start + k]? = some true) := by
  induction ks generalizing s with
  | nil => exact ⟨s, rfl, hs, by simp⟩
  | cons k ks ih =>
    have hk := hin k (List.mem_cons_self _ _)
    have hin2 : ∀ k' ∈ ks, start + k' < bits.length :=
      fun k' hk' => hin k' (List.mem_cons_of_mem _ hk')
    unfold readFlags
    rw [List.getElem?_eq_getElem hk]
    cases hb : bits[start + k]
    · -- bit clear
      dsimp only
      obtain ⟨r, hr, hwf, hbits⟩ := ih s hs hin2
      refine ⟨r, hr, hwf, fun j => ?_⟩
      rw [hbits]
      constructor
      · rintro (h | ⟨k', hk', h1, h2⟩)
        · exact Or.inl h
        · exact Or.inr ⟨k', List.mem_cons_of_mem _ hk', h1, h2⟩
      · rintro (h | ⟨k', hk', h1, h2⟩)
        · exact Or.inl h
        · rcases List.mem_cons.mp hk' with rfl | hmem
          · rw [List.getElem?_eq_getElem hk, hb] at h2
            simp at h2
          · exact Or.inr ⟨k', hmem, h1, h2⟩
    · -- bit set
      dsimp only
      have hsp := setHasProperty_spec hs (k : Int) (by omega) true
      obtain ⟨r, hr, hwf, hbits⟩ := ih (setHasProperty s (k : Int) true) hsp.1 hin2
      refine ⟨r, hr, hwf, fun j => ?_⟩
      rw [hbits, hsp.2]
      constructor
      · rintro (h | ⟨k', hk', h1, h2⟩)
        · split at h
          · rename_i hj
            exact Or.inr ⟨k, List.mem_cons_self _ _, hj.symm, by
              rw [List.getElem?_eq_getElem hk, hb]⟩
          · exact Or.inl h
        · exact Or.inr ⟨k', List.mem_cons_of_mem _ hk', h1, h2⟩
      · rintro (h | ⟨k', hk', h1, h2⟩)
        · left
          split
          · rfl
          · exact h
        · rcases List.mem_cons.mp hk' with rfl | hmem
          · left
            rw [if_pos h1.symm]
          · exact Or.inr ⟨k', hmem, h1, h2⟩

end PropertyFlags

namespace PropertyFlags

/-! ## Round trip on well-formed states -/

theorem length_encodedBits (bytes : QByteArray) :
    (encodedBits bytes).length = 8 * bytes.length := by
  induction bytes with
  | nil => rfl
  | cons b rest ih =>
    unfold encodedBits
    rw [List.length_append, length_byteBits, ih, List.length_cons]
    omega

theorem decode_eq (s : PropertyFlags) (bytes : QByteArray) :
    decode s bytes =
      readFlags (encodedBits bytes) (leadingOnes (encodedBits bytes) + 1)
        (List.range ((leadingOnes (encodedBits bytes) + 1) * 8 -
          (leadingOnes (encodedBits bytes) + 1))) empty := rfl

/-- A well-formed state tracks a flag exactly when `_maxFlag` is not below `_minFlag`. -/
theorem WF.tracked_iff {s : PropertyFlags} (h : WF s) :
    ¬ s._maxFlag < s._minFlag ↔ 0 ≤ s._maxFlag := by
  constructor
  · intro hlt
    have := h.minNonneg
    omega
  · intro h0
    have := h.minLe _ (h.top h0)
    omega

theorem WF.no_flag {s : PropertyFlags} (h : WF s) (hneg : s._maxFlag < 0) (j : Int) :
    getHasProperty s j = false := by
  rw [getHasProperty_of_WF h]
  by_cases hj : j < 0
  · exact QBitArray.testBit_neg _ _ hj
  · exact h.above j (by omega)

/-- In a well-formed state `_maxFlag` is the highest flag that reads true. -/
theorem WF.maxFlag_eq {s : PropertyFlags} (h : WF s) (m : Int)
    (hm : getHasProperty s m = true) (habove : ∀ i, m < i → getHasProperty s i = false) :
    s._maxFlag = m := by
  rw [getHasProperty_of_WF h] at hm
  have h1 : ¬ s._maxFlag < m := by
    intro hlt
    rw [h.above m hlt] at hm
    cases hm
  have h0 : 0 ≤ m := by
    by_contra hneg
    rw [QBitArray.testBit_neg _ _ (by omega)] at hm
    cases hm
  by_contra hne
  have h2 : m < s._maxFlag := by omega
  have h3 := habove _ h2
  rw [getHasProperty_of_WF h, h.top (by omega)] at h3
  cases h3

theorem decode_zero (F : PropertyFlags) : decode F [0] = some empty := by
  rw [decode_eq]
  decide

/-- Decoding the encoding of a well-formed state succeeds and gives a well-formed
state with the same stored bits. -/
theorem decode_encode_WF (s : PropertyFlags) (hs : WF s) (F : PropertyFlags) :
    ∃ R, decode F (encode s) = some R ∧ WF R ∧
      ∀ j, getHasProperty R j = getHasProperty s j := by
  by_cases hneg : s._maxFlag < 0
  · have hlt : s._maxFlag < s._minFlag := by
      have := hs.minNonneg
      omega
    refine ⟨empty, ?_, WF_empty, fun j => ?_⟩
    · rw [encode_of_lt s hlt, decode_zero]
    · rw [hs.no_flag hneg, WF_empty.no_flag (by simp [empty, INT_MIN])]
  · have h0 : 0 ≤ s._maxFlag := by omega
    have htr : ¬ s._maxFlag < s._minFlag := hs.tracked_iff.mpr h0
    obtain ⟨m, hm⟩ : ∃ m : Nat, s._maxFlag = m := ⟨s._maxFlag.toNat, by omega⟩
    have hlen : (encode s).length = m / 7 + 1 := by
      rw [length_encode s htr, hm, tdiv_seven]
      omega
    have hbit : ∀ p, (encodedBits (encode s))[p]? =
        if p < 8 * (m / 7 + 1) then some (streamBit (encode s) p) else none := by
      intro p
      rw [getElem?_encodedBits, hlen]
    have hlead : leadingOnes (encodedBits (encode s)) = m / 7 := by
      apply leadingOnes_eq
      · intro k hk
        rw [hbit, if_pos (by omega), streamBit_encode s htr m hm]
        have : k + 1 < m / 7 + 1 := by omega
        simp [this]
      · rw [hbit, if_pos (by omega), streamBit_encode s htr m hm]
        simp
    rw [decode_eq, hlead]
    obtain ⟨R, hR, hwf, hbits⟩ := readFlags_spec (encodedBits (encode s)) (m / 7 + 1)
      (List.range ((m / 7 + 1) * 8 - (m / 7 + 1))) empty WF_empty (by
        intro k hk
        have := List.mem_range.mp hk
        rw [length_encodedBits, hlen]
        omega)
    refine ⟨R, hR, hwf, fun j => ?_⟩
    rw [getHasProperty_of_WF hwf, getHasProperty_of_WF hs, Bool.eq_iff_iff, hbits]
    constructor
    · rintro (h | ⟨k, hk, rfl, hb⟩)
      · simp [empty, QBitArray.testBit] at h
      · have hk' := List.mem_range.mp hk
        rw [hbit, if_pos (by omega), streamBit_encode s htr m hm] at hb
        simp only [Option.some.injEq, Bool.or_eq_true, Bool.and_eq_true,
          decide_eq_true_eq] at hb
        rcases hb with hb | ⟨_, hb⟩
        · omega
        · rw [Nat.add_sub_cancel_left] at hb
          exact hb
    · intro hj
      right
      have hj0 : 0 ≤ j := by
        by_contra hn
        rw [QBitArray.testBit_neg _ _ (by omega)] at hj
        cases hj
      have hjm : j ≤ m := by
        by_contra hn
        rw [hs.above j (by omega)] at hj
        cases hj
      refine ⟨j.toNat, List.mem_range.mpr (by omega), by omega, ?_⟩
      rw [hbit, if_pos (by omega), streamBit_encode s htr m hm]
      have e1 : ((m / 7 + 1 + j.toNat - (m / 7 + 1) : Nat) : Int) = j := by omega
      rw [e1, hj]
      have e2 : m / 7 + 1 ≤ m / 7 + 1 + j.toNat ∧ m / 7 + 1 + j.toNat ≤ m / 7 + 1 + m := by
        omega
      simp [e2]

end PropertyFlags

namespace PropertyFlags

/-! ## Fields built by `setHasProperty` -/

theorem foldl_setHasProperty_WF (calls : List (Int × Bool)) (s : PropertyFlags) (hs : WF s)
    (hcalls : ∀ c ∈ calls, 0 ≤ c.1) :
    WF (calls.foldl (fun s c => setHasProperty s c.1 c.2) s) := by
  induction calls generalizing s with
  | nil => exact hs
  | cons c calls ih =>
    rw [List.foldl_cons]
    apply ih
    · exact setHasProperty_WF hs c.1 (hcalls c (List.mem_cons_self _ _)) c.2
    · intro c' hc'
      exact hcalls c' (List.mem_cons_of_mem _ hc')

theorem build_WF (calls : List (Int × Bool)) (hcalls : ∀ c ∈ calls, 0 ≤ c.1) :
    WF (build calls) :=
  foldl_setHasProperty_WF calls empty WF_empty hcalls

theorem build_concat (calls : List (Int × Bool)) (c : Int × Bool) :
    build (calls ++ [c]) = setHasProperty (build calls) c.1 c.2 := by
  simp [build, List.foldl_append]

theorem getHasProperty_build (calls : List (Int × Bool)) (hcalls : ∀ c ∈ calls, 0 ≤ c.1)
    (j : Int) : getHasProperty (build calls) j = specHasProperty calls j := by
  induction calls using List.reverseRecOn with
  | nil =>
    rw [show build [] = empty from rfl, WF_empty.no_flag (by simp [empty, INT_MIN])]
    rfl
  | append_singleton calls c ih =>
    have hpre : ∀ c' ∈ calls, 0 ≤ c'.1 :=
      fun c' hc' => hcalls c' (List.mem_append_left _ hc')
    have hc : 0 ≤ c.1 := hcalls c (by simp)
    rw [build_concat, getHasProperty_setHasProperty (build_WF calls hpre) c.1 hc, ih hpre]
    unfold specHasProperty
    rw [List.filter_append]
    by_cases hj : j = c.1
    · have : List.filter (fun c => decide (c.1 = j)) [c] = [c] := by
        simp [List.filter, hj]
      rw [if_pos hj, this, List.getLast?_concat]
    · have : List.filter (fun c => decide (c.1 = j)) [c] = [] := by
        have : ¬ c.1 = j := fun h => hj h.symm
        simp [List.filter, this]
      rw [if_neg hj, this, List.append_nil]

/-- The encoding of a well-formed state is determined by the flags it reports. -/
theorem encode_congr {s t : PropertyFlags} (hs : WF s) (ht : WF t)
    (h : ∀ j, getHasProperty s j = getHasProperty t j) : encode s = encode t := by
  by_cases hneg : s._maxFlag < 0
  · have htneg : t._maxFlag < 0 := by
      by_contra hn
      have h1 := ht.top (by omega)
      rw [← getHasProperty_of_WF ht, ← h, hs.no_flag hneg] at h1
      cases h1
    have h1 := hs.minNonneg
    have h2 := ht.minNonneg
    rw [encode_of_lt s (by omega), encode_of_lt t (by omega)]
  · have h0 : 0 ≤ s._maxFlag := by omega
    have hmax : t._maxFlag = s._maxFlag := by
      apply ht.maxFlag_eq
      · rw [← h, getHasProperty_of_WF hs]
        exact hs.top h0
      · intro i hi
        rw [← h, getHasProperty_of_WF hs]
        exact hs.above i hi
    rw [encode_of_le s (hs.tracked_iff.mpr h0),
      encode_of_le t (ht.tracked_iff.mpr (by omega)), hmax]
    congr 1
    funext out flagIndex
    rw [← getHasProperty_of_WF hs, ← getHasProperty_of_WF ht, h]

/-! ## Fields that may have been complemented -/

theorem shinkIfNeeded_maxFlag_le (t : PropertyFlags) :
    (shinkIfNeeded t)._maxFlag ≤ t._maxFlag := by
  rw [shinkIfNeeded_maxFlag]
  split
  · have := (shinkLoop_bounds t._flags (t._maxFlag.toNat + 1)).2
    push_cast at this
    omega
  · exact le_refl _

theorem shinkIfNeeded_size (t : PropertyFlags) (h : t._maxFlag + 1 ≤ t._flags.length) :
    (shinkIfNeeded t)._maxFlag + 1 ≤ (shinkIfNeeded t)._flags.length := by
  have hle := shinkIfNeeded_maxFlag_le t
  rcases shinkIfNeeded_flags t with hf | hf
  · rw [hf]; omega
  · rw [hf, QBitArray.length_resize, ← shinkIfNeeded_maxFlag]
    omega

/-- The bit array always covers the tracked range, complemented or not. -/
theorem setHasProperty_size (s : PropertyFlags) (i : Int) (v : Bool)
    (h : s._maxFlag + 1 ≤ s._flags.length) :
    (setHasProperty s i v)._maxFlag + 1 ≤ (setHasProperty s i v)._flags.length := by
  by_cases hgt : s._maxFlag < i
  · cases v
    · rw [setHasProperty_above_false s i hgt]; exact h
    · rw [setHasProperty_grow s i hgt]
      dsimp only
      rw [QBitArray.length_setBit, QBitArray.length_resize]
      omega
  · cases v
    · by_cases htop : i = s._maxFlag
      · rw [setHasProperty_top_false s i htop]
        apply shinkIfNeeded_size
        dsimp only
        rw [QBitArray.length_setBit]
        exact h
      · rw [setHasProperty_inner_false s i (by omega)]
        dsimp only
        rw [QBitArray.length_setBit]
        exact h
    · rw [setHasProperty_inner_true s i hgt]
      dsimp only
      rw [QBitArray.length_setBit]
      exact h

theorem ReachableWithNot.size {s : PropertyFlags} (h : ReachableWithNot s) :
    s._maxFlag + 1 ≤ s._flags.length := by
  induction h with
  | empty => decide
  | set s i v _ _ ih => exact setHasProperty_size s i v ih
  | not s _ ih =>
    unfold PropertyFlags.not
    dsimp only
    rw [QBitArray.length_not]
    exact ih

end PropertyFlags

namespace PropertyFlags

/-- The flags reported by a field holding the single flag `k`. -/
theorem getHasProperty_single (k : Int) (hk : 0 ≤ k) (j : Int) :
    getHasProperty (build [(k, true)]) j = decide (j = k) := by
  show getHasProperty (setHasProperty empty k true) j = decide (j = k)
  rw [getHasProperty_setHasProperty WF_empty k hk,
    WF_empty.no_flag (by simp [empty, INT_MIN])]
  by_cases h : j = k <;> simp [h]

/-- After a `setHasProperty(i, true)` with `i ≥ 0` the tracked maximum is `≥ 0`. -/
theorem setHasProperty_true_maxFlag (s : PropertyFlags) (i : Int) (hi : 0 ≤ i) :
    0 ≤ (setHasProperty s i true)._maxFlag := by
  by_cases hgt : s._maxFlag < i
  · rw [setHasProperty_grow s i hgt]
    exact hi
  · rw [setHasProperty_inner_true s i hgt]
    dsimp only
    omega

/-- A tracked maximum `≥ -1` stays `≥ -1` under `setHasProperty` with an index `≥ 0`. -/
theorem setHasProperty_maxFlag_held (s : PropertyFlags) (i : Int) (v : Bool) (hi : 0 ≤ i)
    (h : -1 ≤ s._maxFlag) : -1 ≤ (setHasProperty s i v)._maxFlag := by
  cases v
  · by_cases hgt : s._maxFlag < i
    · rw [setHasProperty_above_false s i hgt]
      exact h
    · by_cases htop : i = s._maxFlag
      · rw [setHasProperty_top_false s i htop, shinkIfNeeded_maxFlag]
        dsimp only
        rw [if_pos (by omega)]
        exact (shinkLoop_bounds _ _).1
      · rw [setHasProperty_inner_false s i (by omega)]
        exact h
  · have := setHasProperty_true_maxFlag s i hi
    omega

theorem foldl_setHasProperty_held (calls : List (Int × Bool)) (s : PropertyFlags)
    (hcalls : ∀ c ∈ calls, 0 ≤ c.1)
    (h : -1 ≤ s._maxFlag ∨ ∃ c ∈ calls, c.2 = true) :
    -1 ≤ (calls.foldl (fun s c => setHasProperty s c.1 c.2) s)._maxFlag := by
  induction calls generalizing s with
  | nil =>
    rcases h with h | ⟨c, hc, _⟩
    · exact h
    · cases hc
  | cons c calls ih =>
    rw [List.foldl_cons]
    have hc := hcalls c (List.mem_cons_self _ _)
    apply ih
    · intro c' hc'
      exact hcalls c' (List.mem_cons_of_mem _ hc')
    · rcases h with h | ⟨c', hc', hv⟩
      · exact Or.inl (setHasProperty_maxFlag_held s c.1 c.2 hc h)
      · rcases List.mem_cons.mp hc' with rfl | hin
        · left
          rw [hv]
          have := setHasProperty_true_maxFlag s c'.1 hc
          omega
        · exact Or.inr ⟨c', hin, hv⟩

/-- A field built by calls of which one sets a flag has a tracked maximum `≥ -1`. -/
theorem build_maxFlag_held (calls : List (Int × Bool)) (hcalls : ∀ c ∈ calls, 0 ≤ c.1)
    (hheld : ∃ c ∈ calls, c.2 = true) : -1 ≤ (build calls)._maxFlag :=
  foldl_setHasProperty_held calls empty hcalls (Or.inr hheld)

/-- The result of `A & B` when the left operand has a tracked maximum `≥ -1`. -/
theorem and_eq_some (a b : PropertyFlags) (h : -1 ≤ a._maxFlag) :
    PropertyFlags.and a b =
      some (shinkIfNeeded { a with _flags := QBitArray.and a._flags b._flags }) :=
  shinkIfNeededChecked_eq_some _ h

/-- The result of `A ^ B` when the left operand has a tracked maximum `≥ -1`. -/
theorem xor_eq_some (a b : PropertyFlags) (h : -1 ≤ a._maxFlag) :
    PropertyFlags.xor a b =
      some (shinkIfNeeded { a with _flags := QBitArray.xor a._flags b._flags }) :=
  shinkIfNeededChecked_eq_some _ h

/-- On a left operand that never held a flag (`_maxFlag = INT_MIN`), `A & B` calls
`resize` with a negative size. -/
theorem and_eq_none (a b : PropertyFlags) (h : a._maxFlag < -1) :
    PropertyFlags.and a b = none :=
  shinkIfNeededChecked_eq_none _ h

/-- On a left operand that never held a flag (`_maxFlag = INT_MIN`), `A ^ B` calls
`resize` with a negative size. -/
theorem xor_eq_none (a b : PropertyFlags) (h : a._maxFlag < -1) :
    PropertyFlags.xor a b = none :=
  shinkIfNeededChecked_eq_none _ h

/-- Intersection of two well-formed states, the left one with a tracked maximum `≥ -1`:
the result is defined and reports the conjunction of their flags. -/
theorem getHasProperty_and_WF {a b : PropertyFlags} (ha : WF a) (hb : WF b)
    (hheld : -1 ≤ a._maxFlag) :
    ∃ r, PropertyFlags.and a b = some r ∧
      ∀ i, getHasProperty r i = (getHasProperty a i && getHasProperty b i) := by
  refine ⟨_, and_eq_some a b hheld, fun i => ?_⟩
  have hsp := shinkIfNeeded_spec { a with _flags := QBitArray.and a._flags b._flags }
    ha.lower
    (by
      intro j hj
      dsimp only at hj ⊢
      rw [QBitArray.testBit_and, ha.above j hj]
      rfl)
    (by
      dsimp only
      rw [QBitArray.length_and]
      have := ha.size
      have : (a._flags.length : Int) ≤ ((max a._flags.length b._flags.length : Nat) : Int) := by
        exact_mod_cast le_max_left _ _
      omega)
  obtain ⟨_, hflip, _, _, _, habove, hbits, _⟩ := hsp
  dsimp only at hflip habove hbits
  rw [getHasProperty_of_WF ha, getHasProperty_of_WF hb, ← QBitArray.testBit_and]
  unfold getHasProperty
  split
  · rename_i hlt
    rw [hflip, ha.flipped, habove i hlt]
  · exact hbits i

/-- Union of two well-formed states reports the disjunction of their flags. -/
theorem getHasProperty_or_WF {a b : PropertyFlags} (ha : WF a) (hb : WF b) (i : Int) :
    getHasProperty (PropertyFlags.or a b) i = (getHasProperty a i || getHasProperty b i) := by
  rw [getHasProperty_of_WF ha, getHasProperty_of_WF hb, ← QBitArray.testBit_or]
  unfold getHasProperty PropertyFlags.or orAssign
  dsimp only
  split
  · rename_i hlt
    have h1 : a._maxFlag < i := lt_of_le_of_lt (le_max_left _ _) hlt
    have h2 : b._maxFlag < i := lt_of_le_of_lt (le_max_right _ _) hlt
    rw [ha.flipped, QBitArray.testBit_or, ha.above i h1, hb.above i h2]
    rfl
  · rfl

/-! ## The claims -/

/-- C1: for every field `S` built from the empty field by `setHasProperty` calls with
indices `≥ 0` (the empty field and the fields with every flag `0..K` set among them),
`decode(S.encode())` on any field `F` succeeds, reading no bit outside its input, and
afterwards `F.getHasProperty(i) == S.getHasProperty(i)` for every `i ≥ 0`. -/
theorem C1_decode_encode_round_trip (calls : List (Int × Bool))
    (hcalls : ∀ c ∈ calls, 0 ≤ c.1) (F : PropertyFlags) :
    ∃ R, decode F (encode (build calls)) = some R ∧
      ∀ i, 0 ≤ i → getHasProperty R i = getHasProperty (build calls) i := by
  obtain ⟨R, hR, _, hget⟩ := decode_encode_WF (build calls) (build_WF calls hcalls) F
  exact ⟨R, hR, fun i _ => hget i⟩

theorem C1_decode_encode_round_trip_witness :
    (∀ c ∈ [((10 : Int), true), (3, true), (10, false), (64, true)], 0 ≤ c.1) ∧
    ∃ R, decode (ofFlag 4)
        (encode (build [((10 : Int), true), (3, true), (10, false), (64, true)])) = some R ∧
      ∀ i, 0 ≤ i → getHasProperty R i =
        getHasProperty (build [((10 : Int), true), (3, true), (10, false), (64, true)]) i :=
  ⟨by decide, C1_decode_encode_round_trip _ (by decide) _⟩

/-- C2: wire layout of `encode`.  For a field built by `setHasProperty` calls whose
highest set flag is `m ≥ 0`, with `L = floor(m/7)+1` and the output (of `L` bytes) read
as a bit stream most significant bit first: bit `p` is 1 for `p < L-1`, bit `L-1` is 0,
bit `L+k` is `getHasProperty(k)` for `0 ≤ k ≤ m`, every later bit up to `8L-1` is 0;
the field `{0}` encodes as the single byte `0x40`. -/
theorem C2_encode_wire_layout (calls : List (Int × Bool)) (hcalls : ∀ c ∈ calls, 0 ≤ c.1)
    (m : Nat) (hm : getHasProperty (build calls) (m : Int) = true)
    (hmax : ∀ i : Int, (m : Int) < i → getHasProperty (build calls) i = false) :
    (encode (build calls)).length = m / 7 + 1 ∧
    (∀ p, p < m / 7 + 1 - 1 → streamBit (encode (build calls)) p = true) ∧
    streamBit (encode (build calls)) (m / 7 + 1 - 1) = false ∧
    (∀ k, k ≤ m → streamBit (encode (build calls)) (m / 7 + 1 + k) =
      getHasProperty (build calls) (k : Int)) ∧
    (∀ p, m / 7 + 1 + m < p → p ≤ 8 * (m / 7 + 1) - 1 →
      streamBit (encode (build calls)) p = false) ∧
    encode (build [(0, true)]) = [0x40] := by
  have hwf := build_WF calls hcalls
  have hmf := hwf.maxFlag_eq (m : Int) hm hmax
  have htr : ¬ (build calls)._maxFlag < (build calls)._minFlag :=
    hwf.tracked_iff.mpr (by omega)
  have hbit := streamBit_encode (build calls) htr m hmf
  refine ⟨?_, ?_, ?_, ?_, ?_, by decide⟩
  · rw [length_encode _ htr, hmf, tdiv_seven]
    omega
  · intro p hp
    rw [hbit]
    have : p + 1 < m / 7 + 1 := by omega
    simp [this]
  · rw [hbit]
    simp
  · intro k hk
    rw [hbit, getHasProperty_of_WF hwf, Nat.add_sub_cancel_left]
    have h1 : ¬ m / 7 + 1 + k + 1 < m / 7 + 1 := by omega
    have h2 : m / 7 + 1 ≤ m / 7 + 1 + k ∧ m / 7 + 1 + k ≤ m / 7 + 1 + m := by omega
    rw [decide_eq_false h1, decide_eq_true h2]
    simp
  · intro p hp1 hp2
    rw [hbit]
    have h1 : ¬ p + 1 < m / 7 + 1 := by omega
    have h2 : ¬ p ≤ m / 7 + 1 + m := by omega
    simp [h1, h2]

theorem C2_encode_wire_layout_witness :
    (∀ c ∈ [((9 : Int), true)], 0 ≤ c.1) ∧
    getHasProperty (build [((9 : Int), true)]) ((9 : Nat) : Int) = true ∧
    (∀ i : Int, ((9 : Nat) : Int) < i → getHasProperty (build [((9 : Int), true)]) i = false) ∧
    ((encode (build [((9 : Int), true)])).length = 9 / 7 + 1 ∧
    (∀ p, p < 9 / 7 + 1 - 1 → streamBit (encode (build [((9 : Int), true)])) p = true) ∧
    streamBit (encode (build [((9 : Int), true)])) (9 / 7 + 1 - 1) = false ∧
    (∀ k, k ≤ 9 → streamBit (encode (build [((9 : Int), true)])) (9 / 7 + 1 + k) =
      getHasProperty (build [((9 : Int), true)]) (k : Int)) ∧
    (∀ p, 9 / 7 + 1 + 9 < p → p ≤ 8 * (9 / 7 + 1) - 1 →
      streamBit (encode (build [((9 : Int), true)])) p = false) ∧
    encode (build [(0, true)]) = [0x40]) :=
  have h1 : ∀ c ∈ [((9 : Int), true)], 0 ≤ c.1 := by decide
  have h2 : getHasProperty (build [((9 : Int), true)]) ((9 : Nat) : Int) = true := by decide
  have h3 : ∀ i : Int, ((9 : Nat) : Int) < i →
      getHasProperty (build [((9 : Int), true)]) i = false := by
    intro i hi
    rw [getHasProperty_single 9 (by decide)]
    simp only [Nat.cast_ofNat] at hi
    simp
    omega
  ⟨h1, h2, h3, C2_encode_wire_layout _ h1 9 h2 h3⟩

/-- C3: for a field built by `setHasProperty` calls in which at least one flag is set,
`encode()` returns exactly `floor(m/7)+1` bytes, `m` being the highest index whose flag
reads true; the length depends on nothing else: any other such field with the same
highest flag has an encoding of the same length. -/
theorem C3_encode_length (calls : List (Int × Bool)) (hcalls : ∀ c ∈ calls, 0 ≤ c.1)
    (m : Nat) (hm : getHasProperty (build calls) (m : Int) = true)
    (hmax : ∀ i : Int, (m : Int) < i → getHasProperty (build calls) i = false) :
    (encode (build calls)).length = m / 7 + 1 ∧
    ∀ other : List (Int × Bool), (∀ c ∈ other, 0 ≤ c.1) →
      getHasProperty (build other) (m : Int) = true →
      (∀ i : Int, (m : Int) < i → getHasProperty (build other) i = false) →
      (encode (build other)).length = (encode (build calls)).length := by
  have key : ∀ cs : List (Int × Bool), (∀ c ∈ cs, 0 ≤ c.1) →
      getHasProperty (build cs) (m : Int) = true →
      (∀ i : Int, (m : Int) < i → getHasProperty (build cs) i = false) →
      (encode (build cs)).length = m / 7 + 1 := by
    intro cs hcs hcm hcmax
    have hwf := build_WF cs hcs
    have hmf := hwf.maxFlag_eq (m : Int) hcm hcmax
    rw [length_encode _ (hwf.tracked_iff.mpr (by omega)), hmf, tdiv_seven]
    omega
  refine ⟨key calls hcalls hm hmax, fun other ho hom homax => ?_⟩
  rw [key calls hcalls hm hmax, key other ho hom homax]

theorem C3_encode_length_witness :
    (∀ c ∈ [((2 : Int), true), (14, true), (20, true), (20, false)], 0 ≤ c.1) ∧
    getHasProperty (build [((2 : Int), true), (14, true), (20, true), (20, false)])
      ((14 : Nat) : Int) = true ∧
    (∀ i : Int, ((14 : Nat) : Int) < i →
      getHasProperty (build [((2 : Int), true), (14, true), (20, true), (20, false)]) i
        = false) ∧
    (encode (build [((2 : Int), true), (14, true), (20, true), (20, false)])).length
      = 14 / 7 + 1 :=
  have h1 : ∀ c ∈ [((2 : Int), true), (14, true), (20, true), (20, false)], 0 ≤ c.1 := by
    decide
  have h2 : getHasProperty (build [((2 : Int), true), (14, true), (20, true), (20, false)])
      ((14 : Nat) : Int) = true := by decide
  have h3 : ∀ i : Int, ((14 : Nat) : Int) < i →
      getHasProperty (build [((2 : Int), true), (14, true), (20, true), (20, false)]) i
        = false := by
    intro i hi
    have hs : (build [((2 : Int), true), (14, true), (20, true), (20, false)])._maxFlag
        = 14 := by decide
    have hf : (build [((2 : Int), true), (14, true), (20, true), (20, false)])._trailingFlipped
        = false := by decide
    unfold getHasProperty
    rw [hs, hf, if_pos (by simpa using hi)]
  ⟨h1, h2, h3, (C3_encode_length _ h1 14 h2 h3).1⟩

end PropertyFlags

namespace PropertyFlags

/-- C4: a field in which no flag is set, reached by `setHasProperty` calls (indices
`≥ 0`) that were all undone, encodes as exactly one byte of value 0; so do the freshly
constructed field and every cleared field. -/
theorem C4_empty_encoding (calls : List (Int × Bool)) (hcalls : ∀ c ∈ calls, 0 ≤ c.1)
    (hnone : ∀ i, 0 ≤ i → getHasProperty (build calls) i = false) :
    encode (build calls) = [0] ∧ encode empty = [0] ∧ ∀ s, encode (clear s) = [0] := by
  have hwf := build_WF calls hcalls
  refine ⟨?_, by decide, fun s => encode_of_lt (clear s) (show INT_MIN < INT_MAX by decide)⟩
  have hneg : (build calls)._maxFlag < 0 := by
    by_contra hn
    have h0 : 0 ≤ (build calls)._maxFlag := by omega
    have h1 := hwf.top h0
    rw [← getHasProperty_of_WF hwf, hnone _ h0] at h1
    cases h1
  have := hwf.minNonneg
  exact encode_of_lt _ (by omega)

theorem C4_empty_encoding_witness :
    (∀ c ∈ [((3 : Int), true), (9, true), (9, false), (3, false)], 0 ≤ c.1) ∧
    (∀ i, 0 ≤ i →
      getHasProperty (build [((3 : Int), true), (9, true), (9, false), (3, false)]) i
        = false) ∧
    (encode (build [((3 : Int), true), (9, true), (9, false), (3, false)]) = [0] ∧
      encode empty = [0] ∧ ∀ s, encode (clear s) = [0]) :=
  have h1 : ∀ c ∈ [((3 : Int), true), (9, true), (9, false), (3, false)], 0 ≤ c.1 := by
    decide
  have h2 : ∀ i, 0 ≤ i →
      getHasProperty (build [((3 : Int), true), (9, true), (9, false), (3, false)]) i
        = false := by
    intro i hi
    have hs : (build [((3 : Int), true), (9, true), (9, false), (3, false)])._maxFlag
        = -1 := by decide
    have hf : (build [((3 : Int), true), (9, true), (9, false), (3, false)])._trailingFlipped
        = false := by decide
    unfold getHasProperty
    rw [hs, hf, if_pos (by omega)]
  ⟨h1, h2, C4_empty_encoding _ h1 h2⟩

/-- C5: `PropertyFlags` implements a set of indices.  After any sequence of
`setHasProperty(i_k, v_k)` calls with `i_k ≥ 0` on an empty field, `getHasProperty(j)`
(`j ≥ 0`) is true iff some call targeted `j` and the last such call had value `true`;
a further call on an index `i ≠ j` does not change the answer for `j`. -/
theorem C5_set_of_indices (calls : List (Int × Bool)) (hcalls : ∀ c ∈ calls, 0 ≤ c.1)
    (j : Int) (hj : 0 ≤ j) :
    getHasProperty (build calls) j = specHasProperty calls j ∧
    ∀ i v, 0 ≤ i → i ≠ j →
      getHasProperty (setHasProperty (build calls) i v) j = getHasProperty (build calls) j := by
  have _ := hj
  refine ⟨getHasProperty_build calls hcalls j, fun i v hi hij => ?_⟩
  rw [getHasProperty_setHasProperty (build_WF calls hcalls) i hi, if_neg (fun h => hij h.symm)]

theorem C5_set_of_indices_witness :
    (∀ c ∈ [((10 : Int), true)], 0 ≤ c.1) ∧ (0 : Int) ≤ 5 ∧
    getHasProperty (build [((10 : Int), true)]) 5 = false ∧
    (getHasProperty (build [((10 : Int), true)]) 5 = specHasProperty [((10 : Int), true)] 5 ∧
    ∀ i v, 0 ≤ i → i ≠ 5 →
      getHasProperty (setHasProperty (build [((10 : Int), true)]) i v) 5 =
        getHasProperty (build [((10 : Int), true)]) 5) :=
  ⟨by decide, by decide, by decide, C5_set_of_indices _ (by decide) 5 (by decide)⟩

/-- C6: trim correctness.  For a field `S` built by `setHasProperty` calls and an index
`i ≥ 0` above every flag set in `S`, setting flag `i` and clearing it again gives a
field whose `encode()` output equals `S.encode()` byte for byte. -/
theorem C6_trim_correctness (calls : List (Int × Bool)) (hcalls : ∀ c ∈ calls, 0 ≤ c.1)
    (i : Int) (hi : 0 ≤ i) (habove : ∀ j, getHasProperty (build calls) j = true → j < i) :
    encode (setHasProperty (setHasProperty (build calls) i true) i false) =
      encode (build calls) := by
  have hwf := build_WF calls hcalls
  have hwf1 := setHasProperty_WF hwf i hi true
  have hwf2 := setHasProperty_WF hwf1 i hi false
  apply encode_congr hwf2 hwf
  intro j
  rw [getHasProperty_setHasProperty hwf1 i hi, getHasProperty_setHasProperty hwf i hi]
  by_cases hji : j = i
  · rw [if_pos hji]
    subst hji
    cases h : getHasProperty (build calls) j
    · rfl
    · have := habove j h
      omega
  · rw [if_neg hji, if_neg hji]

theorem C6_trim_correctness_witness :
    (∀ c ∈ [((3 : Int), true)], 0 ≤ c.1) ∧ (0 : Int) ≤ 10 ∧
    (∀ j, getHasProperty (build [((3 : Int), true)]) j = true → j < 10) ∧
    encode (setHasProperty (setHasProperty (build [((3 : Int), true)]) 10 true) 10 false) =
      encode (build [((3 : Int), true)]) :=
  have h1 : ∀ c ∈ [((3 : Int), true)], 0 ≤ c.1 := by decide
  have h3 : ∀ j, getHasProperty (build [((3 : Int), true)]) j = true → j < 10 := by
    intro j hj
    rw [getHasProperty_single 3 (by decide)] at hj
    have : j = 3 := by simpa using hj
    omega
  ⟨h1, by decide, h3, C6_trim_correctness _ h1 10 (by decide) h3⟩

/-- C7: complement duality.  For every field `S` reachable from the empty field by
`setHasProperty` calls (indices `≥ 0`) and `operator~`, and every `i ≥ 0`, at most or
above the tracked maximum, `(~S).getHasProperty(i) == !S.getHasProperty(i)`. -/
theorem C7_complement_duality (s : PropertyFlags) (hs : ReachableWithNot s)
    (i : Int) (hi : 0 ≤ i) :
    getHasProperty (PropertyFlags.not s) i = !getHasProperty s i := by
  have hsize := hs.size
  unfold getHasProperty PropertyFlags.not
  dsimp only
  split
  · rfl
  · exact QBitArray.testBit_not s._flags i hi (by omega)

theorem C7_complement_duality_witness :
    ReachableWithNot
      (setHasProperty (PropertyFlags.not (setHasProperty empty 2 true)) 4 true) ∧
    (0 : Int) ≤ 3 ∧
    getHasProperty (PropertyFlags.not
      (setHasProperty (PropertyFlags.not (setHasProperty empty 2 true)) 4 true)) 3 =
    !getHasProperty
      (setHasProperty (PropertyFlags.not (setHasProperty empty 2 true)) 4 true) 3 :=
  have h : ReachableWithNot
      (setHasProperty (PropertyFlags.not (setHasProperty empty 2 true)) 4 true) :=
    ReachableWithNot.set _ 4 true
      (ReachableWithNot.not _ (ReachableWithNot.set _ 2 true ReachableWithNot.empty
        (by decide))) (by decide)
  ⟨h, by decide, C7_complement_duality _ h 3 (by decide)⟩

/-- C8, at the failing input `S = ~PropertyFlags()`, `i = 0`: index 0 is above the
tracked maximum, `setHasProperty(0, false)` takes the early return and leaves the whole
state unchanged, and `getHasProperty(0)` afterwards still returns `true`, the
`_trailingFlipped` of the complemented field. -/
theorem C8_clear_above_maximum_complemented :
    (PropertyFlags.not empty)._maxFlag < 0 ∧
    (PropertyFlags.not empty)._trailingFlipped = true ∧
    setHasProperty (PropertyFlags.not empty) 0 false = PropertyFlags.not empty ∧
    getHasProperty (setHasProperty (PropertyFlags.not empty) 0 false) 0 = true := by
  decide

/-- C9, at the failing input `A = {0} ^ {5}`, `B = {7}`: neither operand reports flag 5,
yet `A | B` does, because `^=` left bit 5 set in `_flags` above `A`'s `_maxFlag`. -/
theorem C9_union_exposes_hidden_bit :
    ∃ A, PropertyFlags.xor (ofFlag 0) (ofFlag 5) = some A ∧
      getHasProperty A 5 = false ∧
      getHasProperty (ofFlag 7) 5 = false ∧
      getHasProperty (PropertyFlags.or A (ofFlag 7)) 5 = true ∧
      A._trailingFlipped = false ∧
      A._flags = [true, false, false, false, false, true] ∧
      A._maxFlag = 0 :=
  ⟨{ _flags := [true, false, false, false, false, true], _maxFlag := 0, _minFlag := 0,
     _trailingFlipped := false }, by decide⟩

/-- Intersection is per-flag when the left operand has held a flag: for fields `A`, `B`
each built from the empty field by `setHasProperty` calls (indices `≥ 0`), one of `A`'s
calls setting a flag, `A & B` is defined and answers
`A.getHasProperty(i) && B.getHasProperty(i)` at every `i`. -/
theorem and_build_per_flag (callsA callsB : List (Int × Bool))
    (hA : ∀ c ∈ callsA, 0 ≤ c.1) (hB : ∀ c ∈ callsB, 0 ≤ c.1)
    (hheld : ∃ c ∈ callsA, c.2 = true) :
    ∃ r, PropertyFlags.and (build callsA) (build callsB) = some r ∧
      ∀ i, getHasProperty r i =
        (getHasProperty (build callsA) i && getHasProperty (build callsB) i) :=
  getHasProperty_and_WF (build_WF callsA hA) (build_WF callsB hB)
    (build_maxFlag_held callsA hA hheld)

/-- C10, at the failing input `A = PropertyFlags()` (built by no call), `B = {3}`:
`A & B` enters `shinkIfNeeded()` with `_maxFlag = INT_MIN`, where the `bool`
`maxFlagWas` is `true` and differs from `_maxFlag`, so that `_flags.resize` is called with
the size `INT_MIN + 1 = -2147483647`: `A & B` has no defined result.  The same holds
for a left operand on which flags were only cleared. -/
theorem C10_intersection_undefined_on_empty_left :
    (build [])._maxFlag = INT_MIN ∧
    (build [])._maxFlag + 1 = -2147483647 ∧
    shinkIfNeededChecked
      { build [] with _flags := QBitArray.and (build [])._flags (build [(3, true)])._flags }
      = none ∧
    PropertyFlags.and (build []) (build [(3, true)]) = none ∧
    PropertyFlags.and (build [(3, false)]) (build [(3, true)]) = none := by
  decide

end PropertyFlags

namespace PropertyFlags

/-! ## Xor, add and remove on well-formed states -/

/-- What a field that is not complemented reports after `shinkIfNeeded`: the stored
bits up to the `_maxFlag` it had before, nothing above. -/
theorem getHasProperty_shinkIfNeeded (t : PropertyFlags) (hflip : t._trailingFlipped = false)
    (i : Int) :
    getHasProperty (shinkIfNeeded t) i =
      (decide (i ≤ t._maxFlag) && QBitArray.testBit t._flags i) := by
  have hle := shinkIfNeeded_maxFlag_le t
  unfold getHasProperty
  by_cases hlt : (shinkIfNeeded t)._maxFlag < i
  · rw [if_pos hlt, shinkIfNeeded_trailingFlipped, hflip]
    by_cases hit : i ≤ t._maxFlag
    · have h0 : 0 ≤ t._maxFlag := by
        by_contra hneg
        rw [shinkIfNeeded_maxFlag, if_neg hneg] at hlt
        omega
      rw [shinkIfNeeded_maxFlag, if_pos h0] at hlt
      rw [shinkLoop_above t._flags (t._maxFlag.toNat + 1) i hlt (by push_cast; omega)]
      simp
    · simp [hit]
  · rw [if_neg hlt]
    have hit : i ≤ t._maxFlag := by omega
    rw [decide_eq_true hit, Bool.true_and]
    rcases shinkIfNeeded_flags t with hf | hf
    · rw [hf]
    · rw [hf, QBitArray.testBit_resize, ← shinkIfNeeded_maxFlag]
      have : i < (shinkIfNeeded t)._maxFlag + 1 := by omega
      simp [this]

/-- Xor of two well-formed states, the left one with a tracked maximum `≥ -1`: the
result is defined and reports the exclusive or of the reported flags, cut off at the
left operand's `_maxFlag`. -/
theorem getHasProperty_xor_WF {a b : PropertyFlags} (ha : WF a) (hb : WF b)
    (hheld : -1 ≤ a._maxFlag) :
    ∃ r, PropertyFlags.xor a b = some r ∧
      ∀ i, getHasProperty r i =
        (decide (i ≤ a._maxFlag) &&
          Bool.xor (getHasProperty a i) (getHasProperty b i)) := by
  refine ⟨_, xor_eq_some a b hheld, fun i => ?_⟩
  rw [getHasProperty_shinkIfNeeded { a with _flags := QBitArray.xor a._flags b._flags } ha.flipped]
  dsimp only
  rw [QBitArray.testBit_xor, getHasProperty_of_WF ha, getHasProperty_of_WF hb]

theorem mem_flagRange (other : PropertyFlags) (j : Int) :
    j ∈ flagRange other ↔ other._minFlag ≤ j ∧ j ≤ other._maxFlag := by
  unfold flagRange firstFlag lastFlag
  rw [List.mem_map]
  constructor
  · rintro ⟨k, hk, rfl⟩
    have := List.mem_range.mp hk
    omega
  · rintro ⟨h1, h2⟩
    exact ⟨(j - other._minFlag).toNat, List.mem_range.mpr (by omega), by omega⟩

/-- The loop shared by `+=`, `<<=` (`v = true`) and `-=` (`v = false`) on a
well-formed left operand. -/
theorem foldl_setHasProperty_if (p : Int → Bool) (v : Bool) (fl : List Int)
    (hfl : ∀ f ∈ fl, 0 ≤ f) (r : PropertyFlags) (hr : WF r) :
    WF (fl.foldl (fun r flag => if p flag then setHasProperty r flag v else r) r) ∧
    ∀ j, getHasProperty
        (fl.foldl (fun r flag => if p flag then setHasProperty r flag v else r) r) j =
      if j ∈ fl ∧ p j = true then v else getHasProperty r j := by
  induction fl generalizing r with
  | nil => exact ⟨hr, fun j => by simp⟩
  | cons f fl ih =>
    have hf : 0 ≤ f := hfl f (List.mem_cons_self _ _)
    have hfl2 : ∀ f' ∈ fl, 0 ≤ f' := fun f' h => hfl f' (List.mem_cons_of_mem _ h)
    rw [List.foldl_cons]
    by_cases hp : p f = true
    · rw [if_pos hp]
      obtain ⟨hwf, hget⟩ := ih hfl2 (setHasProperty r f v) (setHasProperty_WF hr f hf v)
      refine ⟨hwf, fun j => ?_⟩
      rw [hget, getHasProperty_setHasProperty hr f hf]
      by_cases h1 : j ∈ fl ∧ p j = true
      · rw [if_pos h1, if_pos ⟨List.mem_cons_of_mem _ h1.1, h1.2⟩]
      · rw [if_neg h1]
        by_cases h2 : j = f
        · subst h2
          rw [if_pos rfl, if_pos ⟨List.mem_cons_self _ _, hp⟩]
        · rw [if_neg h2, if_neg]
          rintro ⟨hm, hpj⟩
          rcases List.mem_cons.mp hm with h | h
          · exact h2 h
          · exact h1 ⟨h, hpj⟩
    · rw [if_neg hp]
      obtain ⟨hwf, hget⟩ := ih hfl2 r hr
      refine ⟨hwf, fun j => ?_⟩
      rw [hget]
      by_cases h1 : j ∈ fl ∧ p j = true
      · rw [if_pos h1, if_pos ⟨List.mem_cons_of_mem _ h1.1, h1.2⟩]
      · rw [if_neg h1, if_neg]
        rintro ⟨hm, hpj⟩
        rcases List.mem_cons.mp hm with h | h
        · subst h
          exact hp hpj
        · exact h1 ⟨h, hpj⟩

theorem WF.mem_flagRange_of_get {b : PropertyFlags} (hb : WF b) (j : Int)
    (h : getHasProperty b j = true) : j ∈ flagRange b := by
  rw [getHasProperty_of_WF hb] at h
  rw [mem_flagRange]
  refine ⟨hb.minLe j h, ?_⟩
  by_contra hn
  rw [hb.above j (by omega)] at h
  cases h

theorem WF.flagRange_nonneg {b : PropertyFlags} (hb : WF b) :
    ∀ f ∈ flagRange b, 0 ≤ f := by
  intro f hf
  have := (mem_flagRange b f).mp hf
  have := hb.minNonneg
  omega

/-- Add on well-formed states is well-formed and reports the union. -/
theorem add_WF {a b : PropertyFlags} (ha : WF a) (hb : WF b) :
    WF (PropertyFlags.add a b) ∧
    ∀ j, getHasProperty (PropertyFlags.add a b) j =
      (getHasProperty a j || getHasProperty b j) := by
  obtain ⟨hwf, hget⟩ := foldl_setHasProperty_if (fun flag => getHasProperty b flag) true
    (flagRange b) hb.flagRange_nonneg a ha
  refine ⟨hwf, fun j => ?_⟩
  show getHasProperty ((flagRange b).foldl _ a) j = _
  rw [hget]
  cases hbj : getHasProperty b j
  · simp
  · simp [hb.mem_flagRange_of_get j hbj]

/-- Remove on well-formed states is well-formed and reports the difference. -/
theorem sub_WF {a b : PropertyFlags} (ha : WF a) (hb : WF b) :
    WF (PropertyFlags.sub a b) ∧
    ∀ j, getHasProperty (PropertyFlags.sub a b) j =
      (getHasProperty a j && !getHasProperty b j) := by
  obtain ⟨hwf, hget⟩ := foldl_setHasProperty_if (fun flag => getHasProperty b flag) false
    (flagRange b) hb.flagRange_nonneg a ha
  refine ⟨hwf, fun j => ?_⟩
  show getHasProperty ((flagRange b).foldl _ a) j = _
  rw [hget]
  cases hbj : getHasProperty b j
  · simp
  · simp [hb.mem_flagRange_of_get j hbj]

/-- A well-formed state that reports no flag encodes as the single zero byte. -/
theorem WF.encode_of_no_flag {s : PropertyFlags} (hs : WF s)
    (hnone : ∀ i, 0 ≤ i → getHasProperty s i = false) : encode s = [0] := by
  have hneg : s._maxFlag < 0 := by
    by_contra hn
    have h0 : 0 ≤ s._maxFlag := by omega
    have h1 := hs.top h0
    rw [← getHasProperty_of_WF hs, hnone _ h0] at h1
    cases h1
  have := hs.minNonneg
  exact encode_of_lt _ (by omega)

/-! ## Inputs shorter than their length prefix -/

/-- The flag loop of `decode` reads outside the bit array as soon as one of its
positions lies outside. -/
theorem readFlags_eq_none (bits : QBitArray) (start : Nat) (ks : List Nat) (s : PropertyFlags)
    (h : ∃ k ∈ ks, bits.length ≤ start + k) : readFlags bits start ks s = none := by
  induction ks generalizing s with
  | nil => simp at h
  | cons k ks ih =>
    unfold readFlags
    by_cases hk : bits.length ≤ start + k
    · rw [List.getElem?_eq_none hk]
    · have htail : ∃ k' ∈ ks, bits.length ≤ start + k' := by
        obtain ⟨k', hk', hlen⟩ := h
        rcases List.mem_cons.mp hk' with rfl | hmem
        · exact absurd hlen hk
        · exact ⟨k', hmem, hlen⟩
      rw [List.getElem?_eq_getElem (by omega)]
      cases bits[start + k] <;> exact ih _ htail

theorem leadingOnes_le_length (bits : QBitArray) : leadingOnes bits ≤ bits.length := by
  induction bits with
  | nil => simp [leadingOnes]
  | cons b rest ih =>
    cases b
    · simp [leadingOnes]
    · simp only [leadingOnes, List.length_cons]
      omega

/-- On an input with fewer bytes than its unary prefix declares, the flag loop of
`decode` reads a bit outside the input. -/
theorem decode_truncated (F : PropertyFlags) (bytes : QByteArray)
    (h : bytes.length < leadingOnes (encodedBits bytes) + 1) : decode F bytes = none := by
  rw [decode_eq]
  apply readFlags_eq_none
  have hle := leadingOnes_le_length (encodedBits bytes)
  rw [length_encodedBits] at hle ⊢
  by_cases hall : leadingOnes (encodedBits bytes) = 8 * bytes.length
  · exact ⟨0, List.mem_range.mpr (by omega), by omega⟩
  · exact ⟨8 * bytes.length - (leadingOnes (encodedBits bytes) + 1),
      List.mem_range.mpr (by omega), by omega⟩

end PropertyFlags

namespace PropertyFlags

/-- C11, as stated, fails when the left operand is the wider one: with `A = {5}` and
`B = {2}`, `n = min(5, 2) = 2`, yet `A ^ B` is defined and reports flag 5. -/
theorem C11_counterexample :
    ∃ R, PropertyFlags.xor (build [(5, true)]) (build [(2, true)]) = some R ∧
      ¬ (getHasProperty R 5 = true ↔
        5 ≤ min (build [(5, true)]).lastFlag (build [(2, true)]).lastFlag ∧
          getHasProperty (build [(5, true)]) 5 ≠ getHasProperty (build [(2, true)]) 5) ∧
      min (build [(5, true)]).lastFlag (build [(2, true)]).lastFlag = 2 ∧
      getHasProperty R 5 = true :=
  ⟨{ _flags := [false, false, true, false, false, true], _maxFlag := 5, _minFlag := 5,
     _trailingFlipped := false }, by decide⟩

/-- C11, amended: xor is bounded by the left operand.  For fields `A`, `B` each built
from the empty field by `setHasProperty` calls (indices `≥ 0`), at least one of `A`'s
calls setting a flag, with `n = A.lastFlag()` before the operation, and every `i ≥ 0`:
`A ^ B` is defined, `(A ^ B).getHasProperty(i)` is true iff `i ≤ n` and exactly one of
`A.getHasProperty(i)`, `B.getHasProperty(i)` is true, and no flag above `n` is
reported. -/
theorem C11_xor_bounded_by_left_operand (callsA callsB : List (Int × Bool))
    (hA : ∀ c ∈ callsA, 0 ≤ c.1) (hB : ∀ c ∈ callsB, 0 ≤ c.1)
    (hheld : ∃ c ∈ callsA, c.2 = true) (i : Int) (hi : 0 ≤ i) :
    ∃ R, PropertyFlags.xor (build callsA) (build callsB) = some R ∧
      (getHasProperty R i = true ↔
        i ≤ (build callsA).lastFlag ∧
          getHasProperty (build callsA) i ≠ getHasProperty (build callsB) i) ∧
      ((build callsA).lastFlag < i → getHasProperty R i = false) := by
  have _ := hi
  obtain ⟨R, hR, hx⟩ := getHasProperty_xor_WF (build_WF callsA hA) (build_WF callsB hB)
    (build_maxFlag_held callsA hA hheld)
  refine ⟨R, hR, ?_, ?_⟩
  · rw [hx i]
    unfold lastFlag
    cases getHasProperty (build callsA) i <;> cases getHasProperty (build callsB) i <;> simp
  · intro hlt
    unfold lastFlag at hlt
    rw [hx i, decide_eq_false (by omega)]
    rfl

theorem C11_xor_bounded_by_left_operand_witness :
    (∀ c ∈ [((2 : Int), true), (3, true)], 0 ≤ c.1) ∧
    (∀ c ∈ [((3 : Int), true), (5, true)], 0 ≤ c.1) ∧
    (∃ c ∈ [((2 : Int), true), (3, true)], c.2 = true) ∧
    (0 : Int) ≤ 5 ∧
    (∃ R, PropertyFlags.xor (build [((2 : Int), true), (3, true)])
        (build [((3 : Int), true), (5, true)]) = some R ∧
      (getHasProperty R 5 = true ↔
        5 ≤ (build [((2 : Int), true), (3, true)]).lastFlag ∧
          getHasProperty (build [((2 : Int), true), (3, true)]) 5 ≠
            getHasProperty (build [((3 : Int), true), (5, true)]) 5) ∧
      ((build [((2 : Int), true), (3, true)]).lastFlag < 5 → getHasProperty R 5 = false)) :=
  ⟨by decide, by decide, by decide, by decide,
    C11_xor_bounded_by_left_operand _ _ (by decide) (by decide) (by decide) 5 (by decide)⟩

/-- C12: add is per-flag union.  For fields `A`, `B` each built from the empty field by
`setHasProperty` calls (indices `≥ 0`) and every `i ≥ 0`,
`(A + B).getHasProperty(i) == (A.getHasProperty(i) || B.getHasProperty(i))`, `A << B`
answers as `A + B`, and when `B` has no flag set the result answers as `A`. -/
theorem C12_add_per_flag_union (callsA callsB : List (Int × Bool))
    (hA : ∀ c ∈ callsA, 0 ≤ c.1) (hB : ∀ c ∈ callsB, 0 ≤ c.1) (i : Int) (hi : 0 ≤ i) :
    getHasProperty (PropertyFlags.add (build callsA) (build callsB)) i =
      (getHasProperty (build callsA) i || getHasProperty (build callsB) i) ∧
    getHasProperty (PropertyFlags.shl (build callsA) (build callsB)) i =
      getHasProperty (PropertyFlags.add (build callsA) (build callsB)) i ∧
    ((∀ j, 0 ≤ j → getHasProperty (build callsB) j = false) →
      getHasProperty (PropertyFlags.add (build callsA) (build callsB)) i =
        getHasProperty (build callsA) i) := by
  have hadd := (add_WF (build_WF callsA hA) (build_WF callsB hB)).2 i
  refine ⟨hadd, rfl, fun hnone => ?_⟩
  rw [hadd, hnone i hi, Bool.or_false]

theorem C12_add_per_flag_union_witness :
    (∀ c ∈ [((1 : Int), true), (6, true), (1, false)], 0 ≤ c.1) ∧
    (∀ c ∈ [((9 : Int), true), (2, true)], 0 ≤ c.1) ∧ (0 : Int) ≤ 9 ∧
    (getHasProperty (PropertyFlags.add (build [((1 : Int), true), (6, true), (1, false)])
        (build [((9 : Int), true), (2, true)])) 9 =
      (getHasProperty (build [((1 : Int), true), (6, true), (1, false)]) 9 ||
        getHasProperty (build [((9 : Int), true), (2, true)]) 9) ∧
    getHasProperty (PropertyFlags.shl (build [((1 : Int), true), (6, true), (1, false)])
        (build [((9 : Int), true), (2, true)])) 9 =
      getHasProperty (PropertyFlags.add (build [((1 : Int), true), (6, true), (1, false)])
        (build [((9 : Int), true), (2, true)])) 9 ∧
    ((∀ j, 0 ≤ j → getHasProperty (build [((9 : Int), true), (2, true)]) j = false) →
      getHasProperty (PropertyFlags.add (build [((1 : Int), true), (6, true), (1, false)])
        (build [((9 : Int), true), (2, true)])) 9 =
        getHasProperty (build [((1 : Int), true), (6, true), (1, false)]) 9)) :=
  ⟨by decide, by decide, by decide,
    C12_add_per_flag_union _ _ (by decide) (by decide) 9 (by decide)⟩

/-- C13: remove is per-flag set difference.  For fields `A`, `B` each built from the
empty field by `setHasProperty` calls (indices `≥ 0`) and every `i ≥ 0`,
`(A - B).getHasProperty(i) == (A.getHasProperty(i) && !B.getHasProperty(i))`; `A - A`
has no flag set and encodes as the single zero byte. -/
theorem C13_remove_per_flag_difference (callsA callsB : List (Int × Bool))
    (hA : ∀ c ∈ callsA, 0 ≤ c.1) (hB : ∀ c ∈ callsB, 0 ≤ c.1) (i : Int) (hi : 0 ≤ i) :
    getHasProperty (PropertyFlags.sub (build callsA) (build callsB)) i =
      (getHasProperty (build callsA) i && !getHasProperty (build callsB) i) ∧
    (∀ j, 0 ≤ j → getHasProperty (PropertyFlags.sub (build callsA) (build callsA)) j = false) ∧
    encode (PropertyFlags.sub (build callsA) (build callsA)) = [0] := by
  have _ := hi
  have hwa := build_WF callsA hA
  have hself := sub_WF hwa hwa
  have hnone : ∀ j, 0 ≤ j →
      getHasProperty (PropertyFlags.sub (build callsA) (build callsA)) j = false := by
    intro j _
    rw [hself.2 j]
    cases getHasProperty (build callsA) j <;> rfl
  exact ⟨(sub_WF hwa (build_WF callsB hB)).2 i, hnone, hself.1.encode_of_no_flag hnone⟩

theorem C13_remove_per_flag_difference_witness :
    (∀ c ∈ [((1 : Int), true), (6, true), (9, true)], 0 ≤ c.1) ∧
    (∀ c ∈ [((9 : Int), true), (2, true)], 0 ≤ c.1) ∧ (0 : Int) ≤ 9 ∧
    (getHasProperty (PropertyFlags.sub (build [((1 : Int), true), (6, true), (9, true)])
        (build [((9 : Int), true), (2, true)])) 9 =
      (getHasProperty (build [((1 : Int), true), (6, true), (9, true)]) 9 &&
        !getHasProperty (build [((9 : Int), true), (2, true)]) 9) ∧
    (∀ j, 0 ≤ j →
      getHasProperty (PropertyFlags.sub (build [((1 : Int), true), (6, true), (9, true)])
        (build [((1 : Int), true), (6, true), (9, true)])) j = false) ∧
    encode (PropertyFlags.sub (build [((1 : Int), true), (6, true), (9, true)])
      (build [((1 : Int), true), (6, true), (9, true)])) = [0]) :=
  ⟨by decide, by decide, by decide,
    C13_remove_per_flag_difference _ _ (by decide) (by decide) 9 (by decide)⟩

/-- C14, at the failing inputs `0x80`, `0xFF` and the empty input: `decode` has no
failure result; its flag loop runs up to `expectedBitCount` (16 for `0x80`, with only 8
bits present) and reads outside the input, which the model reports as `none`. -/
theorem C14_truncated_input_read_past_end :
    decode empty [0x80] = none ∧ decode empty [0xFF] = none ∧ decode empty [] = none ∧
    (encodedBits [0x80]).length = 8 ∧
    (leadingOnes (encodedBits [0x80]) + 1) * BITS_PER_BYTE = 16 := by
  decide

end PropertyFlags

namespace Metavoxel

/-! ## Merge, registry and delta coding -/

theorem finRange_tail : (List.finRange 8).tail = [1, 2, 3, 4, 5, 6, 7] := by
  decide

/-- The flag returned by `merge`, written out. -/
theorem merge_snd {T : Type} (ops : ValueOps T) (parent : T) (children : Fin 8 → T) :
    (merge ops parent children).2 =
      (ops.eq (children 0) (children 1) && ops.eq (children 0) (children 2) &&
        ops.eq (children 0) (children 3) && ops.eq (children 0) (children 4) &&
        ops.eq (children 0) (children 5) && ops.eq (children 0) (children 6) &&
        ops.eq (children 0) (children 7)) := by
  simp [merge, MERGE_COUNT, finRange_tail]

/-- The value left in the parent slot by `merge`, written out. -/
theorem merge_fst {T : Type} (ops : ValueOps T) (parent : T) (children : Fin 8 → T) :
    (merge ops parent children).1 =
      ops.divInt (ops.add (ops.add (ops.add (ops.add (ops.add (ops.add (ops.add
        (children 0) (children 1)) (children 2)) (children 3)) (children 4))
        (children 5)) (children 6)) (children 7)) 8 := by
  simp [merge, finRange_tail, MERGE_COUNT]

/-- C15: return value of `SimpleInlineAttribute::merge`.  For a value type whose `==`
is symmetric and transitive and every array of 8 children, `merge` returns true iff
`children[i] == children[0]` for every `i` in `1..7`, equivalently iff all eight
children are pairwise equal under `==`; it returns false for `{1,..,8}` and true for
`{3,..,3}`. -/
theorem C15_merge_return_value {T : Type} (ops : ValueOps T)
    (hsymm : ∀ a b, ops.eq a b = ops.eq b a)
    (htrans : ∀ a b c, ops.eq a b = true → ops.eq b c = true → ops.eq a c = true)
    (parent : T) (children : Fin 8 → T) :
    ((merge ops parent children).2 = true ↔
      ∀ i : Fin 8, 1 ≤ i.val → ops.eq (children i) (children 0) = true) ∧
    ((∀ i : Fin 8, 1 ≤ i.val → ops.eq (children i) (children 0) = true) ↔
      ∀ i j : Fin 8, ops.eq (children i) (children j) = true) ∧
    (∀ p, (merge intOps p ![1, 2, 3, 4, 5, 6, 7, 8]).2 = false) ∧
    (∀ p, (merge intOps p ![3, 3, 3, 3, 3, 3, 3, 3]).2 = true) := by
  refine ⟨?_, ?_, fun _ => rfl, fun _ => rfl⟩
  · rw [merge_snd]
    simp only [Bool.and_eq_true]
    constructor
    · rintro ⟨⟨⟨⟨⟨⟨h1, h2⟩, h3⟩, h4⟩, h5⟩, h6⟩, h7⟩ i hi
      rw [hsymm]
      fin_cases i
      · simp at hi
      · exact h1
      · exact h2
      · exact h3
      · exact h4
      · exact h5
      · exact h6
      · exact h7
    · intro hall
      refine ⟨⟨⟨⟨⟨⟨?_, ?_⟩, ?_⟩, ?_⟩, ?_⟩, ?_⟩, ?_⟩ <;>
        (rw [hsymm]; exact hall _ (by decide))
  · constructor
    · intro hall i j
      have h10 : ops.eq (children 1) (children 0) = true := hall 1 (by decide)
      have h00 : ops.eq (children 0) (children 0) = true :=
        htrans _ _ _ (by rw [hsymm]; exact h10) h10
      have h0 : ∀ k : Fin 8, ops.eq (children k) (children 0) = true := by
        intro k
        by_cases hk : 1 ≤ k.val
        · exact hall k hk
        · have : k = 0 := Fin.ext (by simp; omega)
          rw [this]
          exact h00
      exact htrans _ _ _ (h0 i) (by rw [hsymm]; exact h0 j)
    · intro hall i _
      exact hall i 0

theorem C15_merge_return_value_witness :
    (∀ a b : ℚ, ratOps.eq a b = ratOps.eq b a) ∧
    (∀ a b c : ℚ, ratOps.eq a b = true → ratOps.eq b c = true → ratOps.eq a c = true) ∧
    (((merge ratOps 0 ![1, 2, 3, 4, 5, 6, 7, 8]).2 = true ↔
      ∀ i : Fin 8, 1 ≤ i.val →
        ratOps.eq ((![1, 2, 3, 4, 5, 6, 7, 8] : Fin 8 → ℚ) i)
          ((![1, 2, 3, 4, 5, 6, 7, 8] : Fin 8 → ℚ) 0) = true) ∧
    ((∀ i : Fin 8, 1 ≤ i.val →
        ratOps.eq ((![1, 2, 3, 4, 5, 6, 7, 8] : Fin 8 → ℚ) i)
          ((![1, 2, 3, 4, 5, 6, 7, 8] : Fin 8 → ℚ) 0) = true) ↔
      ∀ i j : Fin 8,
        ratOps.eq ((![1, 2, 3, 4, 5, 6, 7, 8] : Fin 8 → ℚ) i)
          ((![1, 2, 3, 4, 5, 6, 7, 8] : Fin 8 → ℚ) j) = true) ∧
    (∀ p, (merge intOps p ![1, 2, 3, 4, 5, 6, 7, 8]).2 = false) ∧
    (∀ p, (merge intOps p ![3, 3, 3, 3, 3, 3, 3, 3]).2 = true)) :=
  have h1 : ∀ a b : ℚ, ratOps.eq a b = ratOps.eq b a := fun a b => by
    simp [ratOps, eq_comm]
  have h2 : ∀ a b c : ℚ, ratOps.eq a b = true → ratOps.eq b c = true →
      ratOps.eq a c = true := fun a b c hab hbc => by
    simp only [ratOps, decide_eq_true_eq] at hab hbc ⊢
    rw [hab, hbc]
  ⟨h1, h2, C15_merge_return_value ratOps h1 h2 0 ![1, 2, 3, 4, 5, 6, 7, 8]⟩

/-- C16: parent value of `SimpleInlineAttribute::merge`.  Over exact rational
arithmetic, for every array of 8 children `merge` leaves `(c0 + ... + c7) / 8` in the
parent, whatever the parent held before; for `{1,..,8}` the parent is `9/2`. -/
theorem C16_merge_parent_is_mean (parent : ℚ) (children : Fin 8 → ℚ) :
    (merge ratOps parent children).1 = (∑ i : Fin 8, children i) / 8 ∧
    (merge ratOps parent ![1, 2, 3, 4, 5, 6, 7, 8]).1 = 9 / 2 := by
  constructor
  · rw [merge_fst, Fin.sum_univ_eight]
    simp [ratOps]
  · rw [merge_fst]
    have e5 : (![1, 2, 3, 4, 5, 6, 7, 8] : Fin 8 → ℚ) 5 = 6 := rfl
    have e6 : (![1, 2, 3, 4, 5, 6, 7, 8] : Fin 8 → ℚ) 6 = 7 := rfl
    have e7 : (![1, 2, 3, 4, 5, 6, 7, 8] : Fin 8 → ℚ) 7 = 8 := rfl
    simp [ratOps, e5, e6, e7]
    norm_num

/-- C17, at the failing input: over an unsigned 32-bit value type, merging eight
children all equal to `2^29 = 536870912` returns true and leaves `0` in the parent,
because the sum `8 * 2^29` wraps to `0` before the division; for `v = 3` the parent
is `3`. -/
theorem C17_merge_identical_children_overflow :
    (∀ p, merge u32Ops p (fun _ => 536870912) = (0, true)) ∧
    (536870912 : Nat) < 2 ^ 32 ∧
    (∀ p, merge u32Ops p (fun _ => 3) = (3, true)) := by
  refine ⟨fun _ => ?_, by decide, fun _ => ?_⟩
  · show merge u32Ops 0 (fun _ => 536870912) = (0, true)
    decide
  · show merge u32Ops 0 (fun _ => 3) = (3, true)
    decide

/-- C18: lookup of an unknown name is absence.  For every registry state and every name
that is not a key of the attribute map, `getAttribute(name)` returns the null pointer
and leaves the map unchanged; for a name that is a key it returns the mapped pointer. -/
theorem C18_getAttribute_unknown_name (r : AttributeRegistry) (name : String) :
    (QHash.contains r._attributes name = false →
      (getAttribute r name).2 = none ∧ (getAttribute r name).1 = r) ∧
    (∀ pointer, r._attributes.lookup name = some pointer →
      (getAttribute r name).2 = pointer ∧ (getAttribute r name).1 = r) := by
  constructor
  · intro h
    refine ⟨?_, rfl⟩
    unfold QHash.contains at h
    unfold getAttribute QHash.value
    cases hl : r._attributes.lookup name with
    | none => rfl
    | some p => rw [hl] at h; cases h
  · intro pointer h
    refine ⟨?_, rfl⟩
    unfold getAttribute QHash.value
    simp only [h]

theorem C18_getAttribute_unknown_name_witness :
    QHash.contains
        ({ _attributes := [("color", some ⟨1, "color"⟩)] } : AttributeRegistry)._attributes
        "normal" = false ∧
    (getAttribute { _attributes := [("color", some ⟨1, "color"⟩)] } "normal").2 = none ∧
    (getAttribute { _attributes := [("color", some ⟨1, "color"⟩)] } "normal").1 =
      { _attributes := [("color", some ⟨1, "color"⟩)] } :=
  ⟨by decide,
    (C18_getAttribute_unknown_name { _attributes := [("color", some ⟨1, "color"⟩)] }
      "normal").1 (by decide)⟩

/-- C19: registration is idempotent.  For every registry state and attributes `A`, `A'`
with the same name, `registerAttribute(A)` followed by `registerAttribute(A')` returns
for the second call the pointer returned by the first, the map still maps the name to
that pointer (to `A` itself when the name was not registered before), and the number
of registered attributes is the same after the second call as after the first. -/
theorem C19_registration_idempotent (r : AttributeRegistry) (a a' : Attribute)
    (hname : a'.name = a.name) :
    (registerAttribute (registerAttribute r a).1 a').2 = (registerAttribute r a).2 ∧
    QHash.value (registerAttribute (registerAttribute r a).1 a').1._attributes a.name =
      (registerAttribute r a).2 ∧
    (QHash.contains r._attributes a.name = false →
      QHash.value (registerAttribute (registerAttribute r a).1 a').1._attributes a.name =
        some a) ∧
    QHash.size (registerAttribute (registerAttribute r a).1 a').1._attributes =
      QHash.size (registerAttribute r a).1._attributes := by
  unfold registerAttribute
  rw [hname]
  cases hl : r._attributes.lookup a.name with
  | some existing =>
    simp [hl, QHash.value, QHash.contains]
  | none =>
    simp [QHash.value, QHash.contains, List.lookup]

theorem C19_registration_idempotent_witness :
    (⟨2, "color"⟩ : Attribute).name = (⟨1, "color"⟩ : Attribute).name ∧
    ((registerAttribute (registerAttribute { _attributes := [] } ⟨1, "color"⟩).1
        ⟨2, "color"⟩).2 = (registerAttribute { _attributes := [] } ⟨1, "color"⟩).2 ∧
    QHash.value (registerAttribute (registerAttribute { _attributes := [] }
        ⟨1, "color"⟩).1 ⟨2, "color"⟩).1._attributes (⟨1, "color"⟩ : Attribute).name =
      (registerAttribute { _attributes := [] } ⟨1, "color"⟩).2 ∧
    (QHash.contains ({ _attributes := [] } : AttributeRegistry)._attributes
        (⟨1, "color"⟩ : Attribute).name = false →
      QHash.value (registerAttribute (registerAttribute { _attributes := [] }
        ⟨1, "color"⟩).1 ⟨2, "color"⟩).1._attributes (⟨1, "color"⟩ : Attribute).name =
        some ⟨1, "color"⟩) ∧
    QHash.size (registerAttribute (registerAttribute { _attributes := [] }
        ⟨1, "color"⟩).1 ⟨2, "color"⟩).1._attributes =
      QHash.size (registerAttribute { _attributes := [] } ⟨1, "color"⟩).1._attributes) :=
  ⟨rfl, C19_registration_idempotent { _attributes := [] } ⟨1, "color"⟩ ⟨2, "color"⟩ rfl⟩

/-- C20: default delta coding degrades to full coding.  For every attribute that keeps
the default bodies, every value, reference and `isLeaf`, `writeDelta` produces the
stream `write` produces and `readDelta` leaves the stream and the value that `read`
leaves; neither depends on the reference. -/
theorem C20_default_delta_is_full {Bitstream Value : Type}
    (a : AttributeCodec Bitstream Value) (stream : Bitstream) (value reference : Value)
    (isLeaf : Bool) :
    writeDelta a stream value reference isLeaf = a.write stream value isLeaf ∧
    readDelta a stream value reference isLeaf = a.read stream value isLeaf ∧
    (∀ other : Value,
      writeDelta a stream value other isLeaf = writeDelta a stream value reference isLeaf ∧
      readDelta a stream value other isLeaf = readDelta a stream value reference isLeaf) :=
  ⟨rfl, rfl, fun _ => ⟨rfl, rfl⟩⟩

end Metavoxel

namespace PropertyFlags

/-! ## Reachable states, trailing bytes and checked indexing -/

/-- Union of two well-formed states is well-formed. -/
theorem or_WF {a b : PropertyFlags} (ha : WF a) (hb : WF b) : WF (PropertyFlags.or a b) := by
  have hbits : ∀ i, QBitArray.testBit (PropertyFlags.or a b)._flags i =
      (QBitArray.testBit a._flags i || QBitArray.testBit b._flags i) :=
    fun i => QBitArray.testBit_or _ _ i
  have hmax : (PropertyFlags.or a b)._maxFlag = max a._maxFlag b._maxFlag := rfl
  have hmin : (PropertyFlags.or a b)._minFlag = min a._minFlag b._minFlag := rfl
  have hlen : (PropertyFlags.or a b)._flags.length = max a._flags.length b._flags.length :=
    QBitArray.length_or _ _
  refine ⟨ha.flipped, ?_, ?_, ?_, ?_, ?_, ?_⟩
  · rw [hmax]
    rcases ha.lower with h1 | h1 <;> rcases hb.lower with h2 | h2
    · left; rw [h1, h2]; exact max_self _
    · right; exact le_trans h2 (le_max_right _ _)
    · right; exact le_trans h1 (le_max_left _ _)
    · right; exact le_trans h1 (le_max_left _ _)
  · rw [hmax, hlen]
    have h1 := ha.size
    have h2 := hb.size
    have h3 : ((max a._flags.length b._flags.length : Nat) : Int) =
        max (a._flags.length : Int) (b._flags.length : Int) := by
      exact_mod_cast rfl
    rw [h3]
    rcases le_total a._maxFlag b._maxFlag with h | h
    · rw [max_eq_right h]
      exact le_trans h2 (le_max_right _ _)
    · rw [max_eq_left h]
      exact le_trans h1 (le_max_left _ _)
  · intro i hi
    rw [hmax] at hi
    rw [hbits, ha.above i (lt_of_le_of_lt (le_max_left _ _) hi),
      hb.above i (lt_of_le_of_lt (le_max_right _ _) hi)]
    rfl
  · intro h0
    rw [hmax] at h0 ⊢
    rw [hbits]
    rcases le_total a._maxFlag b._maxFlag with h | h
    · rw [max_eq_right h] at h0 ⊢
      rw [hb.top h0]
      simp
    · rw [max_eq_left h] at h0 ⊢
      rw [ha.top h0]
      simp
  · intro i hi
    rw [hbits] at hi
    rw [hmin]
    rcases Bool.or_eq_true _ _ ▸ hi with h | h
    · exact le_trans (min_le_left _ _) (ha.minLe i h)
    · exact le_trans (min_le_right _ _) (hb.minLe i h)
  · rw [hmin]
    exact le_min ha.minNonneg hb.minNonneg

/-- The flag loop of `decode` keeps the state well-formed whenever it succeeds. -/
theorem readFlags_WF (bits : QBitArray) (start : Nat) (ks : List Nat) (s r : PropertyFlags)
    (hs : WF s) (h : readFlags bits start ks s = some r) : WF r := by
  induction ks generalizing s with
  | nil =>
    unfold readFlags at h
    cases h
    exact hs
  | cons k ks ih =>
    unfold readFlags at h
    cases hb : bits[start + k]? with
    | none => rw [hb] at h; cases h
    | some b =>
      rw [hb] at h
      cases b
      · exact ih s hs h
      · exact ih _ (setHasProperty_WF hs (k : Int) (by omega) true) h

theorem decode_WF (s r : PropertyFlags) (bytes : QByteArray) (h : decode s bytes = some r) :
    WF r := by
  rw [decode_eq] at h
  exact readFlags_WF _ _ _ _ _ WF_empty h

theorem Reachable.wf {s : PropertyFlags} (h : Reachable s) : WF s := by
  induction h with
  | empty => exact WF_empty
  | set s i v _ hi ih => exact setHasProperty_WF ih i hi v
  | decode s r bytes _ hd _ => exact decode_WF s r bytes hd
  | or a b _ _ iha ihb => exact or_WF iha ihb
  | add a b _ _ iha ihb => exact (add_WF iha ihb).1
  | shl a b _ _ iha ihb => exact (add_WF iha ihb).1
  | sub a b _ _ iha ihb => exact (sub_WF iha ihb).1

/-- A well-formed state that reports some flag has a non-negative `_maxFlag`. -/
theorem WF.maxFlag_nonneg_of_get {s : PropertyFlags} (hs : WF s) (i : Int)
    (h : getHasProperty s i = true) : 0 ≤ s._maxFlag := by
  by_contra hneg
  rw [hs.no_flag (by omega)] at h
  cases h

theorem encodedBits_append (a b : QByteArray) :
    encodedBits (a ++ b) = encodedBits a ++ encodedBits b := by
  induction a with
  | nil => rfl
  | cons x rest ih =>
    show byteBits x ++ encodedBits (rest ++ b) = (byteBits x ++ encodedBits rest) ++ encodedBits b
    rw [ih, List.append_assoc]

/-- The header loop does not look past the first clear bit. -/
theorem leadingOnes_append (x y : QBitArray) (h : leadingOnes x < x.length) :
    leadingOnes (x ++ y) = leadingOnes x := by
  induction x with
  | nil => simp at h
  | cons b rest ih =>
    cases b
    · rfl
    · have h' : leadingOnes rest + 1 < rest.length + 1 := h
      show leadingOnes (rest ++ y) + 1 = leadingOnes rest + 1
      rw [ih (by omega)]

/-- The flag loop depends only on the bits at the positions it visits. -/
theorem readFlags_congr (bits1 bits2 : QBitArray) (start : Nat) (ks : List Nat)
    (s : PropertyFlags) (h : ∀ k ∈ ks, bits1[start + k]? = bits2[start + k]?) :
    readFlags bits1 start ks s = readFlags bits2 start ks s := by
  induction ks generalizing s with
  | nil => rfl
  | cons k ks ih =>
    have hk := h k (List.mem_cons_self _ _)
    have htl : ∀ k' ∈ ks, bits1[start + k']? = bits2[start + k']? :=
      fun k' hk' => h k' (List.mem_cons_of_mem _ hk')
    unfold readFlags
    rw [hk]
    cases bits2[start + k]? with
    | none => rfl
    | some b =>
      cases b
      · exact ih s htl
      · exact ih _ htl

/-- The unary prefix of an encoding declares exactly its length in bytes. -/
theorem leadingOnes_encode (s : PropertyFlags) (hs : WF s) :
    leadingOnes (encodedBits (encode s)) + 1 = (encode s).length := by
  by_cases hneg : s._maxFlag < 0
  · have hlt : s._maxFlag < s._minFlag := by
      have := hs.minNonneg
      omega
    rw [encode_of_lt s hlt]
    decide
  · have h0 : 0 ≤ s._maxFlag := by omega
    have htr : ¬ s._maxFlag < s._minFlag := hs.tracked_iff.mpr h0
    obtain ⟨m, hm⟩ : ∃ m : Nat, s._maxFlag = m := ⟨s._maxFlag.toNat, by omega⟩
    have hlen : (encode s).length = m / 7 + 1 := by
      rw [length_encode s htr, hm, tdiv_seven]
      omega
    have hbit : ∀ p, (encodedBits (encode s))[p]? =
        if p < 8 * (m / 7 + 1) then some (streamBit (encode s) p) else none := by
      intro p
      rw [getElem?_encodedBits, hlen]
    rw [hlen]
    congr 1
    apply leadingOnes_eq
    · intro k hk
      rw [hbit, if_pos (by omega), streamBit_encode s htr m hm]
      have : k + 1 < m / 7 + 1 := by omega
      simp [this]
    · rw [hbit, if_pos (by omega), streamBit_encode s htr m hm]
      simp

/-- Bytes after an encoding are not looked at by the header loop or the flag loop, and
do not change what `decode` returns. -/
theorem decode_encode_append (s : PropertyFlags) (hs : WF s) (t : QByteArray)
    (F : PropertyFlags) :
    decode F (encode s ++ t) = decode F (encode s) ∧
    ∀ p ∈ decodeReads (encode s ++ t), p < 8 * (encode s).length := by
  have hlo := leadingOnes_encode s hs
  have hlenb := length_encodedBits (encode s)
  have hlo' : leadingOnes (encodedBits (encode s ++ t)) = leadingOnes (encodedBits (encode s)) := by
    rw [encodedBits_append]
    apply leadingOnes_append
    omega
  constructor
  · rw [decode_eq, decode_eq, hlo']
    apply readFlags_congr
    intro k hk
    have := List.mem_range.mp hk
    rw [encodedBits_append, List.getElem?_append_left (by omega)]
  · intro p hp
    unfold decodeReads at hp
    simp only [BITS_PER_BYTE] at hp
    rw [hlo'] at hp
    rcases List.mem_append.mp hp with h | h
    · have := List.mem_range.mp h
      have := min_le_left (leadingOnes (encodedBits (encode s)) + 1)
        (encodedBits (encode s ++ t)).length
      omega
    · obtain ⟨k, hk, rfl⟩ := List.mem_map.mp h
      have := List.mem_range.mp hk
      omega

theorem packHeaderChecked_eq (lengthInBytes : Int) (is : List Nat) (out : QByteArray)
    (h : ∀ i ∈ is, i / 8 < out.length) :
    packHeaderChecked lengthInBytes is out =
      some (is.foldl
        (fun o i => packBit o i (if decide ((i : Int) < lengthInBytes - 1) then 1 else 0))
        out) := by
  induction is generalizing out with
  | nil => rfl
  | cons i is ih =>
    have hi := h i (List.mem_cons_self _ _)
    unfold packHeaderChecked packBitChecked
    simp only [BITS_PER_BYTE, hi, if_true, List.foldl_cons]
    rw [ih]
    · simp
    · intro i' hi'
      rw [length_packBit]
      exact h i' (List.mem_cons_of_mem _ hi')

theorem packFlagsChecked_eq (flags : QBitArray) (lengthInBytes : Nat) (ks : List Nat)
    (out : QByteArray)
    (h : ∀ k ∈ ks, k < flags.length ∧ (lengthInBytes + k) / 8 < out.length) :
    packFlagsChecked flags lengthInBytes ks out =
      some (ks.foldl
        (fun o k => packBit o (lengthInBytes + k)
          (if QBitArray.testBit flags (k : Int) then 1 else 0)) out) := by
  induction ks generalizing out with
  | nil => rfl
  | cons k ks ih =>
    obtain ⟨hk1, hk2⟩ := h k (List.mem_cons_self _ _)
    have hbit : QBitArray.testBit flags (k : Int) = flags[k] := by
      unfold QBitArray.testBit
      simp [List.getD_eq_getElem?_getD, List.getElem?_eq_getElem hk1]
    unfold packFlagsChecked packBitChecked
    simp only [BITS_PER_BYTE, hk2, if_true, List.foldl_cons, List.getElem?_eq_getElem hk1]
    rw [ih, hbit]
    intro k' hk'
    rw [length_packBit]
    exact h k' (List.mem_cons_of_mem _ hk')

/-- With `_maxFlag = m ≥ 0` and at least `m + 1` stored bits, no index used by `encode`
is out of range. -/
theorem encodeChecked_eq (s : PropertyFlags) (m : Nat) (hm : s._maxFlag = m)
    (hsize : m + 1 ≤ s._flags.length) : encodeChecked s = some (encode s) := by
  by_cases hlt : s._maxFlag < s._minFlag
  · unfold encodeChecked
    rw [if_pos hlt, encode_of_lt s hlt]
    rfl
  · have hL : (Int.tdiv s._maxFlag 7 + 1).toNat = m / 7 + 1 := by
      rw [hm, tdiv_seven]
      omega
    have hM : (s._maxFlag + 1).toNat = m + 1 := by omega
    unfold encodeChecked
    rw [if_neg hlt, encode_of_le s hlt]
    simp only [BITS_PER_BYTE, Nat.cast_ofNat, Int.reduceSub]
    rw [packHeaderChecked_eq]
    · dsimp only
      rw [packFlagsChecked_eq]
      intro k hk
      rw [length_foldl_packBit, List.length_replicate, hL]
      rw [hM] at hk
      have := List.mem_range.mp hk
      constructor <;> omega
    · intro i hi
      rw [List.length_replicate]
      have := List.mem_range.mp hi
      omega

end PropertyFlags

namespace Metavoxel

/-! ## Permuted children and inline attributes -/

/-- With exact comparison, `merge` returns true exactly when every child equals child 0. -/
theorem merge_snd_iff {T : Type} (ops : ValueOps T) (heq : ∀ a b, ops.eq a b = true ↔ a = b)
    (parent : T) (children : Fin 8 → T) :
    (merge ops parent children).2 = true ↔ ∀ i : Fin 8, children i = children 0 := by
  rw [merge_snd]
  simp only [Bool.and_eq_true, heq]
  constructor
  · rintro ⟨⟨⟨⟨⟨⟨h1, h2⟩, h3⟩, h4⟩, h5⟩, h6⟩, h7⟩ i
    fin_cases i
    · rfl
    · exact h1.symm
    · exact h2.symm
    · exact h3.symm
    · exact h4.symm
    · exact h5.symm
    · exact h6.symm
    · exact h7.symm
  · intro hall
    refine ⟨⟨⟨⟨⟨⟨?_, ?_⟩, ?_⟩, ?_⟩, ?_⟩, ?_⟩, ?_⟩ <;> exact (hall _).symm

/-- With exact comparison, the flag returned by `merge` does not change when the
children are permuted. -/
theorem merge_snd_perm {T : Type} (ops : ValueOps T) (heq : ∀ a b, ops.eq a b = true ↔ a = b)
    (σ : Equiv.Perm (Fin 8)) (p p' : T) (children : Fin 8 → T) :
    (merge ops p (children ∘ σ)).2 = (merge ops p' children).2 := by
  rw [Bool.eq_iff_iff, merge_snd_iff ops heq, merge_snd_iff ops heq]
  simp only [Function.comp_apply]
  constructor
  · intro h i
    have h1 := h (σ.symm i)
    have h2 := h (σ.symm 0)
    rw [Equiv.apply_symm_apply] at h1 h2
    rw [h1, h2]
  · intro h i
    rw [h (σ i), h (σ 0)]

theorem merge_fst_rat (p : ℚ) (children : Fin 8 → ℚ) :
    (merge ratOps p children).1 = (∑ i : Fin 8, children i) / 8 := by
  rw [merge_fst, Fin.sum_univ_eight]
  simp [ratOps]

theorem merge_fst_int (p : Int) (children : Fin 8 → Int) :
    (merge intOps p children).1 = Int.tdiv (∑ i : Fin 8, children i) 8 := by
  rw [merge_fst, Fin.sum_univ_eight]
  simp [intOps]

theorem merge_fst_u32 (p : Nat) (children : Fin 8 → Nat) :
    (merge u32Ops p children).1 = (∑ i : Fin 8, children i) % 2 ^ 32 / 8 := by
  rw [merge_fst, Fin.sum_univ_eight]
  have h8 : (((8 : Int) % 2 ^ 32).toNat) = 8 := by decide
  simp only [u32Ops, h8]
  congr 1
  norm_num

end Metavoxel

namespace PropertyFlags

/-- C22, at the failing input: after `setHasProperty(1)`, `setHasProperty(2)`,
`setHasProperty(2, false)` the field holds flag 1 alone with `_maxFlag = 1`, but `_flags`
still has 3 bits: `shinkIfNeeded` compares the new `_maxFlag` with a `bool` and skips
the resize. -/
theorem C22_storage_not_resized :
    (build [(1, true), (2, true), (2, false)])._maxFlag = 1 ∧
    (build [(1, true), (2, true), (2, false)])._flags = [false, true, false] ∧
    (build [(1, true), (2, true), (2, false)])._flags.length = 3 ∧
    getHasProperty (build [(1, true), (2, true), (2, false)]) 1 = true ∧
    (build [(1, true), (3, true), (3, false)])._flags.length = 4 := by
  decide

/-- Xor operates only on the left operand's tracked range when that operand has held a
flag: for fields `A`, `B` each built from the empty field by `setHasProperty` calls
(indices `≥ 0`), one of `A`'s calls setting a flag, `A ^ B` is defined and
`(A ^ B).getHasProperty(i)` is true iff `i ≤ A.lastFlag()` and exactly one of
`A.getHasProperty(i)`, `B.getHasProperty(i)` is true. -/
theorem xor_build_left_tracked_range (callsA callsB : List (Int × Bool))
    (hA : ∀ c ∈ callsA, 0 ≤ c.1) (hB : ∀ c ∈ callsB, 0 ≤ c.1)
    (hheld : ∃ c ∈ callsA, c.2 = true) :
    ∃ R, PropertyFlags.xor (build callsA) (build callsB) = some R ∧
      ∀ i, (getHasProperty R i = true ↔
        i ≤ (build callsA).lastFlag ∧
          (getHasProperty (build callsA) i = true ∧ getHasProperty (build callsB) i = false ∨
            getHasProperty (build callsA) i = false ∧
              getHasProperty (build callsB) i = true)) := by
  obtain ⟨R, hR, hx⟩ := getHasProperty_xor_WF (build_WF callsA hA) (build_WF callsB hB)
    (build_maxFlag_held callsA hA hheld)
  refine ⟨R, hR, fun i => ?_⟩
  rw [hx i]
  unfold lastFlag
  cases getHasProperty (build callsA) i <;> cases getHasProperty (build callsB) i <;> simp

/-- C23, at the failing input `A = PropertyFlags()` (built by no call), `B = {3}`:
`A ^ B` enters `shinkIfNeeded()` with `_maxFlag = INT_MIN`, where the `bool`
`maxFlagWas` is `true` and differs from `_maxFlag`, so that `_flags.resize` is called with
the size `INT_MIN + 1 = -2147483647`: `A ^ B` has no defined result, and
`(A ^ B).getHasProperty(i)` has no value to compare. -/
theorem C23_xor_undefined_on_empty_left :
    (build []).lastFlag = INT_MIN ∧
    (build []).lastFlag + 1 = -2147483647 ∧
    shinkIfNeededChecked
      { build [] with _flags := QBitArray.xor (build [])._flags (build [(3, true)])._flags }
      = none ∧
    PropertyFlags.xor (build []) (build [(3, true)]) = none ∧
    PropertyFlags.xor (build [(3, false)]) (build [(3, true)]) = none := by
  decide

/-- C24: the encoding is self-delimiting.  For a field `S` built by `setHasProperty`
calls and every byte sequence `t`, decoding `S.encode()` followed by `t` succeeds and
gives a field with the answers of `S` for every `i ≥ 0`; the header loop and the flag
loop read no bit at a position `≥ 8 * S.encode().size()`, and the result is that of
decoding `S.encode()` alone. -/
theorem C24_encoding_self_delimiting (calls : List (Int × Bool))
    (hcalls : ∀ c ∈ calls, 0 ≤ c.1) (t : QByteArray) (F : PropertyFlags) :
    (∃ R, decode F (encode (build calls) ++ t) = some R ∧
      ∀ i, 0 ≤ i → getHasProperty R i = getHasProperty (build calls) i) ∧
    (∀ p ∈ decodeReads (encode (build calls) ++ t), p < 8 * (encode (build calls)).length) ∧
    decode F (encode (build calls) ++ t) = decode F (encode (build calls)) := by
  have hwf := build_WF calls hcalls
  obtain ⟨happ, hreads⟩ := decode_encode_append (build calls) hwf t F
  obtain ⟨R, hR, _, hget⟩ := decode_encode_WF (build calls) hwf F
  exact ⟨⟨R, by rw [happ, hR], fun i _ => hget i⟩, hreads, happ⟩

theorem C24_encoding_self_delimiting_witness :
    (∀ c ∈ [((10 : Int), true), (3, true)], 0 ≤ c.1) ∧
    ((∃ R, decode empty (encode (build [((10 : Int), true), (3, true)]) ++ [0xFF, 0x12])
        = some R ∧
      ∀ i, 0 ≤ i → getHasProperty R i =
        getHasProperty (build [((10 : Int), true), (3, true)]) i) ∧
    (∀ p ∈ decodeReads (encode (build [((10 : Int), true), (3, true)]) ++ [0xFF, 0x12]),
      p < 8 * (encode (build [((10 : Int), true), (3, true)])).length) ∧
    decode empty (encode (build [((10 : Int), true), (3, true)]) ++ [0xFF, 0x12]) =
      decode empty (encode (build [((10 : Int), true), (3, true)]))) :=
  ⟨by decide, C24_encoding_self_delimiting _ (by decide) [0xFF, 0x12] empty⟩

/-- C25: `decode` overwrites the previous state completely.  For every byte sequence and
every two prior fields `P1`, `P2` (any flags, complemented or not), decoding into `P1`
and into `P2` gives what decoding into a freshly constructed field gives; when `decode`
stays within the input the two results agree in all four members. -/
theorem C25_decode_overwrites_state (b : QByteArray) (P1 P2 : PropertyFlags) :
    decode P1 b = decode empty b ∧ decode P2 b = decode empty b ∧
    ∀ R1 R2, decode P1 b = some R1 → decode P2 b = some R2 →
      R1._flags = R2._flags ∧ R1._maxFlag = R2._maxFlag ∧ R1._minFlag = R2._minFlag ∧
        R1._trailingFlipped = R2._trailingFlipped := by
  refine ⟨rfl, rfl, fun R1 R2 h1 h2 => ?_⟩
  have h : decode P1 b = decode P2 b := rfl
  rw [h1, h2] at h
  cases h
  exact ⟨rfl, rfl, rfl, rfl⟩

theorem C25_decode_overwrites_state_witness :
    decode (PropertyFlags.not (ofFlag 9)) [0x44] = some (build [(0, true), (4, true)]) ∧
    decode (ofFlag 3) [0x44] = some (build [(0, true), (4, true)]) ∧
    (build [(0, true), (4, true)])._flags = (build [(0, true), (4, true)])._flags ∧
    (build [(0, true), (4, true)])._maxFlag = (build [(0, true), (4, true)])._maxFlag ∧
    (build [(0, true), (4, true)])._minFlag = (build [(0, true), (4, true)])._minFlag ∧
    (build [(0, true), (4, true)])._trailingFlipped =
      (build [(0, true), (4, true)])._trailingFlipped :=
  have h1 : decode (PropertyFlags.not (ofFlag 9)) [0x44] =
      some (build [(0, true), (4, true)]) := by decide
  have h2 : decode (ofFlag 3) [0x44] = some (build [(0, true), (4, true)]) := by decide
  ⟨h1, h2, (C25_decode_overwrites_state [0x44] (PropertyFlags.not (ofFlag 9)) (ofFlag 3)).2.2
    _ _ h1 h2⟩

/-- C26: tracked range invariant.  In every state reachable from the empty field by
`setHasProperty` (indices `≥ 0`), `decode` of an in-bounds input, `|`, `+`, `<<` and `-`,
every `i` with `getHasProperty(i)` true satisfies `firstFlag() ≤ i ≤ lastFlag()`, the bit
array has at least `lastFlag()+1` bits, and whenever some flag is set the flag at
`lastFlag()` is set. -/
theorem C26_tracked_range_invariant (s : PropertyFlags) (hs : Reachable s) :
    (∀ i, getHasProperty s i = true → s.firstFlag ≤ i ∧ i ≤ s.lastFlag) ∧
    s.lastFlag + 1 ≤ s._flags.length ∧
    ((∃ i, getHasProperty s i = true) → getHasProperty s s.lastFlag = true) := by
  have hwf := hs.wf
  unfold firstFlag lastFlag
  refine ⟨fun i hi => ?_, hwf.size, ?_⟩
  · have := (mem_flagRange s i).mp (hwf.mem_flagRange_of_get i hi)
    exact this
  · rintro ⟨i, hi⟩
    rw [getHasProperty_of_WF hwf]
    exact hwf.top (hwf.maxFlag_nonneg_of_get i hi)

theorem C26_tracked_range_invariant_witness :
    Reachable (PropertyFlags.sub
      (PropertyFlags.or (setHasProperty empty 2 true) (setHasProperty empty 7 true))
      (setHasProperty empty 7 true)) ∧
    ((∀ i, getHasProperty (PropertyFlags.sub
        (PropertyFlags.or (setHasProperty empty 2 true) (setHasProperty empty 7 true))
        (setHasProperty empty 7 true)) i = true →
      (PropertyFlags.sub
        (PropertyFlags.or (setHasProperty empty 2 true) (setHasProperty empty 7 true))
        (setHasProperty empty 7 true)).firstFlag ≤ i ∧
      i ≤ (PropertyFlags.sub
        (PropertyFlags.or (setHasProperty empty 2 true) (setHasProperty empty 7 true))
        (setHasProperty empty 7 true)).lastFlag) ∧
    (PropertyFlags.sub
        (PropertyFlags.or (setHasProperty empty 2 true) (setHasProperty empty 7 true))
        (setHasProperty empty 7 true)).lastFlag + 1 ≤
      (PropertyFlags.sub
        (PropertyFlags.or (setHasProperty empty 2 true) (setHasProperty empty 7 true))
        (setHasProperty empty 7 true))._flags.length ∧
    ((∃ i, getHasProperty (PropertyFlags.sub
        (PropertyFlags.or (setHasProperty empty 2 true) (setHasProperty empty 7 true))
        (setHasProperty empty 7 true)) i = true) →
      getHasProperty (PropertyFlags.sub
        (PropertyFlags.or (setHasProperty empty 2 true) (setHasProperty empty 7 true))
        (setHasProperty empty 7 true))
        (PropertyFlags.sub
          (PropertyFlags.or (setHasProperty empty 2 true) (setHasProperty empty 7 true))
          (setHasProperty empty 7 true)).lastFlag = true)) :=
  have h2 : Reachable (setHasProperty empty 2 true) :=
    Reachable.set _ 2 true Reachable.empty (by decide)
  have h7 : Reachable (setHasProperty empty 7 true) :=
    Reachable.set _ 7 true Reachable.empty (by decide)
  have h : Reachable (PropertyFlags.sub
      (PropertyFlags.or (setHasProperty empty 2 true) (setHasProperty empty 7 true))
      (setHasProperty empty 7 true)) :=
    Reachable.sub _ _ (Reachable.or _ _ h2 h7) h7
  ⟨h, C26_tracked_range_invariant _ h⟩

/-- C27: `encode` never indexes out of range.  For every `m ≥ 0`, with
`L = floor(m/7)+1`, `L + m + 1 ≤ 8 L`; so every byte index `i / 8` of the two packing
loops is below `L`, and in every state with `_maxFlag = m` and at least `m + 1` stored
bits the index-checked `encode` succeeds with the result of `encode`. -/
theorem C27_encode_in_range (m : Nat) :
    m / 7 + 1 + m + 1 ≤ 8 * (m / 7 + 1) ∧
    (∀ i, i < m / 7 + 1 → i / 8 < m / 7 + 1) ∧
    (∀ k, k ≤ m → (m / 7 + 1 + k) / 8 < m / 7 + 1) ∧
    ∀ s : PropertyFlags, s._maxFlag = m → m + 1 ≤ s._flags.length →
      encodeChecked s = some (encode s) ∧
      ∀ flagIndex ∈ List.range (s._maxFlag + 1).toNat,
        flagIndex ≤ m ∧ flagIndex < s._flags.length := by
  refine ⟨by omega, fun i hi => by omega, fun k hk => by omega, fun s hm hsize => ?_⟩
  refine ⟨encodeChecked_eq s m hm hsize, fun k hk => ?_⟩
  have := List.mem_range.mp hk
  constructor <;> omega

theorem C27_encode_in_range_witness :
    (build [((3 : Int), true), (9, true)])._maxFlag = ((9 : Nat) : Int) ∧
    9 + 1 ≤ (build [((3 : Int), true), (9, true)])._flags.length ∧
    encodeChecked (build [((3 : Int), true), (9, true)]) =
      some (encode (build [((3 : Int), true), (9, true)])) :=
  ⟨by decide, by decide, ((C27_encode_in_range 9).2.2.2 _ (by decide) (by decide)).1⟩

/-- C28, at the failing input `a = PropertyFlags()`, `b = ~PropertyFlags()`: `a == b` is
true, because only `_flags` is compared, yet `a` reports flag 0 clear and `b` reports
it set. -/
theorem C28_equality_ignores_complement :
    PropertyFlags.eq empty (PropertyFlags.not empty) = true ∧
    getHasProperty empty 0 = false ∧
    getHasProperty (PropertyFlags.not empty) 0 = true := by
  decide

/-- C29, at the failing input `a = PropertyFlags()`, `b = ~PropertyFlags()`: after
`a = b` the field `a` reports flag 0 clear while `b`, and a copy of `b`, report it set,
because `operator=` does not copy `_trailingFlipped`. -/
theorem C29_assignment_drops_complement :
    getHasProperty (assign empty (PropertyFlags.not empty)) 0 = false ∧
    getHasProperty (PropertyFlags.not empty) 0 = true ∧
    (assign empty (PropertyFlags.not empty))._trailingFlipped = false ∧
    (PropertyFlags.not empty)._trailingFlipped = true := by
  decide

end PropertyFlags

namespace Metavoxel

/-- C21: non-leaf nodes carry no payload for inline attributes.  For every
`InlineAttribute<T, bits>`, value and stream, `write` with `isLeaf = false` leaves the
stream as it is and `read` with `isLeaf = false` leaves the stream and the value as they
are; with `isLeaf = true`, `write` appends exactly `bits` bits and `read` advances the
cursor by exactly `bits` bits. -/
theorem C21_non_leaf_no_payload (a : InlineAttribute) (stream : Bitstream) (value : Nat) :
    a.write stream value false = stream ∧
    a.read stream value false = (stream, value) ∧
    (∃ appended : List Bool,
      (a.write stream value true).data = stream.data ++ appended ∧
        appended.length = a.bits) ∧
    (a.write stream value true).position = stream.position ∧
    (a.read stream value true).1.position = stream.position + a.bits ∧
    (a.read stream value true).1.data = stream.data := by
  refine ⟨rfl, rfl, ⟨(List.range a.bits).map fun (k : Nat) => value.testBit k, rfl, ?_⟩,
    rfl, rfl, rfl⟩
  simp

/-- C30: `SimpleInlineAttribute::merge` does not depend on the octant order.  Over
exact rational arithmetic, exact integer arithmetic and integer arithmetic modulo
`2^32`, for every array of 8 children and every permutation of it, `merge` leaves the
same parent value and returns the same flag. -/
theorem C30_merge_order_independent (σ : Equiv.Perm (Fin 8)) :
    (∀ (children : Fin 8 → ℚ) (p p' : ℚ),
      merge ratOps p (children ∘ σ) = merge ratOps p' children) ∧
    (∀ (children : Fin 8 → Int) (p p' : Int),
      merge intOps p (children ∘ σ) = merge intOps p' children) ∧
    (∀ (children : Fin 8 → Nat) (p p' : Nat),
      merge u32Ops p (children ∘ σ) = merge u32Ops p' children) := by
  refine ⟨fun children p p' => ?_, fun children p p' => ?_, fun children p p' => ?_⟩
  · apply Prod.ext
    · rw [merge_fst_rat, merge_fst_rat]
      simp only [Function.comp_apply]
      rw [Equiv.sum_comp σ children]
    · exact merge_snd_perm ratOps (fun a b => by simp [ratOps]) σ p p' children
  · apply Prod.ext
    · rw [merge_fst_int, merge_fst_int]
      simp only [Function.comp_apply]
      rw [Equiv.sum_comp σ children]
    · exact merge_snd_perm intOps (fun a b => by simp [intOps]) σ p p' children
  · apply Prod.ext
    · rw [merge_fst_u32, merge_fst_u32]
      simp only [Function.comp_apply]
      rw [Equiv.sum_comp σ children]
    · exact merge_snd_perm u32Ops (fun a b => by simp [u32Ops]) σ p p' children

end Metavoxel

namespace Metavoxel

/-! ## Signed merge and the leaf round trip -/

theorem wrapInt32_of_inRange (x : Int) (h1 : -2147483648 ≤ x) (h2 : x ≤ 2147483647) :
    wrapInt32 x = x := by
  unfold wrapInt32
  omega

theorem runningSums_eq (c : Fin 8 → Int) :
    runningSums c =
      [c 0, c 0 + c 1, c 0 + c 1 + c 2, c 0 + c 1 + c 2 + c 3, c 0 + c 1 + c 2 + c 3 + c 4,
        c 0 + c 1 + c 2 + c 3 + c 4 + c 5, c 0 + c 1 + c 2 + c 3 + c 4 + c 5 + c 6,
        c 0 + c 1 + c 2 + c 3 + c 4 + c 5 + c 6 + c 7] := by
  show List.scanl _ _ (List.finRange 8).tail = _
  rw [finRange_tail]
  rfl

/-- Truncating division by 8 keeps a value between any bounds of one eighth of it. -/
theorem tdiv_eight_bounds (x lo hi : Int) (h1 : 8 * lo ≤ x) (h2 : x ≤ 8 * hi) :
    lo ≤ Int.tdiv x 8 ∧ Int.tdiv x 8 ≤ hi := by
  by_cases hx : 0 ≤ x
  · rw [Int.tdiv_eq_ediv hx (by omega)]
    constructor <;> omega
  · have h := Int.neg_tdiv (-x) 8
    rw [neg_neg] at h
    rw [h, Int.tdiv_eq_ediv (by omega) (by omega)]
    constructor <;> omega

/-- When no running sum leaves the range of `int`, the signed 32-bit `merge` leaves the
truncated quotient of the exact sum in the parent. -/
theorem merge_fst_i32 (p : Int) (c : Fin 8 → Int)
    (hrun : ∀ x ∈ runningSums c, -2147483648 ≤ x ∧ x ≤ 2147483647) :
    (merge i32Ops p c).1 = Int.tdiv (∑ i : Fin 8, c i) 8 := by
  rw [runningSums_eq] at hrun
  simp only [List.mem_cons, List.mem_singleton, List.not_mem_nil, or_false,
    forall_eq_or_imp, forall_eq] at hrun
  obtain ⟨_, h1, h2, h3, h4, h5, h6, h7⟩ := hrun
  rw [merge_fst, Fin.sum_univ_eight]
  simp only [i32Ops]
  rw [wrapInt32_of_inRange _ h1.1 h1.2, wrapInt32_of_inRange _ h2.1 h2.2,
    wrapInt32_of_inRange _ h3.1 h3.2, wrapInt32_of_inRange _ h4.1 h4.2,
    wrapInt32_of_inRange _ h5.1 h5.2, wrapInt32_of_inRange _ h6.1 h6.2,
    wrapInt32_of_inRange _ h7.1 h7.2]
  have hb := tdiv_eight_bounds (c 0 + c 1 + c 2 + c 3 + c 4 + c 5 + c 6 + c 7)
    (-2147483648) 2147483647 (by omega) (by omega)
  exact wrapInt32_of_inRange _ hb.1 hb.2

/-- The truncated quotient of the sum of eight values lies between any lower and any
upper bound of the values. -/
theorem tdiv_sum_bounds (c : Fin 8 → Int) (lo hi : Int) (hlo : ∀ i, lo ≤ c i)
    (hhi : ∀ i, c i ≤ hi) :
    lo ≤ Int.tdiv (∑ i : Fin 8, c i) 8 ∧ Int.tdiv (∑ i : Fin 8, c i) 8 ≤ hi := by
  rw [Fin.sum_univ_eight]
  have l0 := hlo 0; have l1 := hlo 1; have l2 := hlo 2; have l3 := hlo 3
  have l4 := hlo 4; have l5 := hlo 5; have l6 := hlo 6; have l7 := hlo 7
  have u0 := hhi 0; have u1 := hhi 1; have u2 := hhi 2; have u3 := hhi 3
  have u4 := hhi 4; have u5 := hhi 5; have u6 := hhi 6; have u7 := hhi 7
  exact tdiv_eight_bounds _ lo hi (by omega) (by omega)

theorem bitsToNat_concat (l : List Bool) (b : Bool) :
    bitsToNat (l ++ [b]) = bitsToNat l + 2 ^ l.length * b.toNat := by
  induction l with
  | nil => simp [bitsToNat]
  | cons x rest ih =>
    show x.toNat + 2 * bitsToNat (rest ++ [b]) = x.toNat + 2 * bitsToNat rest + _
    rw [ih, List.length_cons, pow_succ]
    ring

/-- The low `n` bits of a slot, written lowest first, hold the slot modulo `2^n`. -/
theorem bitsToNat_testBit (v n : Nat) :
    bitsToNat ((List.range n).map fun (k : Nat) => v.testBit k) = v % 2 ^ n := by
  induction n with
  | zero => simp [bitsToNat, Nat.mod_one]
  | succ n ih =>
    rw [List.range_succ, List.map_append, List.map_singleton, bitsToNat_concat, ih,
      List.length_map, List.length_range, Nat.toNat_testBit, Nat.mod_pow_succ]

/-- Reading `n` bits at the place where the low `n` bits of `v` were appended. -/
theorem read_after_write (out : Bitstream) (v slot n : Nat) :
    (Bitstream.read { data := (Bitstream.write out v n).data, position := out.data.length }
      slot n).2 = slot / 2 ^ n * 2 ^ n + v % 2 ^ n := by
  unfold Bitstream.read Bitstream.write
  dsimp only
  congr 1
  rw [← bitsToNat_testBit v n]
  congr 1
  apply List.map_congr_left
  intro k hk
  have hk' := List.mem_range.mp hk
  rw [List.getD_eq_getElem?_getD, List.getElem?_append_right (by omega),
    Nat.add_sub_cancel_left, List.getElem?_map, List.getElem?_range hk']
  rfl

/-- The bits of a slot whose low `n` bits were replaced. -/
theorem testBit_replace_low (d v n k : Nat) :
    (d / 2 ^ n * 2 ^ n + v % 2 ^ n).testBit k =
      if k < n then v.testBit k else d.testBit k := by
  rw [Nat.mul_comm, Nat.testBit_mul_pow_two_add _ (Nat.mod_lt _ (by positivity)),
    Nat.testBit_mod_two_pow]
  by_cases hk : k < n
  · simp [hk]
  · rw [if_neg hk, if_neg hk, ← Nat.shiftRight_eq_div_pow, Nat.testBit_shiftRight]
    congr 1
    omega

end Metavoxel

namespace Metavoxel

/-- C31: the merged parent lies within the children's range.  For
`SimpleInlineAttribute` over signed 32-bit integers with truncating division and every
array of 8 children whose running sums do not overflow, the parent left by `merge`
satisfies `min(children) ≤ parent ≤ max(children)`; the same holds over unbounded
integers. -/
theorem C31_merge_parent_within_range (children : Fin 8 → Int) (parent : Int)
    (hrun : ∀ x ∈ runningSums children, -2147483648 ≤ x ∧ x ≤ 2147483647) :
    Finset.univ.inf' Finset.univ_nonempty children ≤ (merge i32Ops parent children).1 ∧
    (merge i32Ops parent children).1 ≤ Finset.univ.sup' Finset.univ_nonempty children ∧
    (∃ i, children i ≤ (merge i32Ops parent children).1) ∧
    (∃ j, (merge i32Ops parent children).1 ≤ children j) ∧
    Finset.univ.inf' Finset.univ_nonempty children ≤ (merge intOps parent children).1 ∧
    (merge intOps parent children).1 ≤ Finset.univ.sup' Finset.univ_nonempty children := by
  have hb := tdiv_sum_bounds children
    (Finset.univ.inf' Finset.univ_nonempty children)
    (Finset.univ.sup' Finset.univ_nonempty children)
    (fun i => Finset.inf'_le children (Finset.mem_univ i))
    (fun i => Finset.le_sup' children (Finset.mem_univ i))
  rw [merge_fst_i32 parent children hrun, merge_fst_int]
  refine ⟨hb.1, hb.2, ?_, ?_, hb.1, hb.2⟩
  · obtain ⟨i, _, hi⟩ := Finset.exists_mem_eq_inf' Finset.univ_nonempty children
    exact ⟨i, by rw [← hi]; exact hb.1⟩
  · obtain ⟨j, _, hj⟩ := Finset.exists_mem_eq_sup' Finset.univ_nonempty children
    exact ⟨j, by rw [← hj]; exact hb.2⟩

theorem C31_merge_parent_within_range_witness :
    (∀ x ∈ runningSums ![-7, 2, -3, 4, -5, 6, -9, 1], -2147483648 ≤ x ∧ x ≤ 2147483647) ∧
    (merge i32Ops 0 ![-7, 2, -3, 4, -5, 6, -9, 1]).1 = -1 ∧
    (Finset.univ.inf' Finset.univ_nonempty (![-7, 2, -3, 4, -5, 6, -9, 1] : Fin 8 → Int) ≤
      (merge i32Ops 0 ![-7, 2, -3, 4, -5, 6, -9, 1]).1 ∧
    (merge i32Ops 0 ![-7, 2, -3, 4, -5, 6, -9, 1]).1 ≤
      Finset.univ.sup' Finset.univ_nonempty (![-7, 2, -3, 4, -5, 6, -9, 1] : Fin 8 → Int) ∧
    (∃ i, (![-7, 2, -3, 4, -5, 6, -9, 1] : Fin 8 → Int) i ≤
      (merge i32Ops 0 ![-7, 2, -3, 4, -5, 6, -9, 1]).1) ∧
    (∃ j, (merge i32Ops 0 ![-7, 2, -3, 4, -5, 6, -9, 1]).1 ≤
      (![-7, 2, -3, 4, -5, 6, -9, 1] : Fin 8 → Int) j) ∧
    Finset.univ.inf' Finset.univ_nonempty (![-7, 2, -3, 4, -5, 6, -9, 1] : Fin 8 → Int) ≤
      (merge intOps 0 ![-7, 2, -3, 4, -5, 6, -9, 1]).1 ∧
    (merge intOps 0 ![-7, 2, -3, 4, -5, 6, -9, 1]).1 ≤
      Finset.univ.sup' Finset.univ_nonempty (![-7, 2, -3, 4, -5, 6, -9, 1] : Fin 8 → Int)) :=
  ⟨by decide, by decide,
    C31_merge_parent_within_range ![-7, 2, -3, 4, -5, 6, -9, 1] 0 (by decide)⟩

/-- C32: leaf round trip of `InlineAttribute<T, bits>`.  For every value `v` and a bit
stream that returns the bits written to it, `read` with `isLeaf = true` after `write`
with `isLeaf = true` leaves a slot whose low `bits` bits are those of `v` and whose
other bits are those of `getDefaultValue()`, whatever the slot held before; the result
equals `v` under `equal()` whenever `bits` covers the width of `T`. -/
theorem C32_leaf_round_trip (a : InlineAttribute) (out : Bitstream) (v slot : Nat) :
    (∀ k, k < a.bits →
      (a.read { data := (a.write out v true).data, position := out.data.length }
        slot true).2.testBit k = v.testBit k) ∧
    (∀ k, a.bits ≤ k →
      (a.read { data := (a.write out v true).data, position := out.data.length }
        slot true).2.testBit k = a.getDefaultValue.testBit k) ∧
    (a.width ≤ a.bits →
      a.equal (a.read { data := (a.write out v true).data, position := out.data.length }
        slot true).2 v = true) := by
  have hval : (a.read { data := (a.write out v true).data, position := out.data.length }
      slot true).2 = a._defaultValue / 2 ^ a.bits * 2 ^ a.bits + v % 2 ^ a.bits :=
    read_after_write out v a._defaultValue a.bits
  rw [hval]
  refine ⟨fun k hk => ?_, fun k hk => ?_, fun hw => ?_⟩
  · rw [testBit_replace_low, if_pos hk]
  · rw [testBit_replace_low, if_neg (by omega)]
    rfl
  · unfold InlineAttribute.equal InlineAttribute.decodeInline
    rw [beq_iff_eq]
    apply Nat.eq_of_testBit_eq
    intro k
    rw [Nat.testBit_mod_two_pow, Nat.testBit_mod_two_pow, testBit_replace_low]
    by_cases hk : k < a.width
    · rw [if_pos (by omega)]
    · simp [hk]

theorem C32_leaf_round_trip_witness :
    (⟨8, 8, 0xFF00⟩ : InlineAttribute).width ≤ (⟨8, 8, 0xFF00⟩ : InlineAttribute).bits ∧
    (⟨8, 8, 0xFF00⟩ : InlineAttribute).equal
      ((⟨8, 8, 0xFF00⟩ : InlineAttribute).read
        { data := ((⟨8, 8, 0xFF00⟩ : InlineAttribute).write ⟨[true, false], 2⟩ 0xAB true).data,
          position := (⟨[true, false], 2⟩ : Bitstream).data.length } 0x1234 true).2 0xAB
      = true ∧
    ((⟨8, 8, 0xFF00⟩ : InlineAttribute).read
        { data := ((⟨8, 8, 0xFF00⟩ : InlineAttribute).write ⟨[true, false], 2⟩ 0xAB true).data,
          position := (⟨[true, false], 2⟩ : Bitstream).data.length } 0x1234 true).2
      = 0xFFAB :=
  ⟨by decide,
    (C32_leaf_round_trip ⟨8, 8, 0xFF00⟩ ⟨[true, false], 2⟩ 0xAB 0x1234).2.2 (by decide),
    by decide⟩

end Metavoxel
